import Mathlib

/-!
Verification of the jsonpatch package (jsonpatch/jsonpatch.go): a shallow
embedding of the document model, the path resolver, the UTF-16 index
translation layer, the equality comparator and the operation dispatcher,
together with theorems settling the specification claims.

Modelling conventions:
- Go `any` values that can appear in a document are modelled by the tagged
  variant `Value`; the Go numeric types float64, int, int32, int64 are the
  four `NumKind` tags, all carrying an exact rational payload (the code
  coerces every numeric value to float64 before use; we model the double
  arithmetic of the relevant operations, which is exact on the values the
  claims exercise, by exact rational arithmetic).
- Go maps are association lists without duplicate keys; `map[string]any`
  reads and writes become `objGet` / `objSet` / `objDel`.
- Go mutates the document in place through reference semantics (maps) and
  through the grandparent write-back for slices.  On tree-shaped documents
  (the only ones constructible from JSON) both are equivalent to a
  functional update along the resolved prefix, which is how `setAt` models
  every write.
- `Apply` returns the final document together with an optional error,
  mirroring the Go function that mutates its argument and returns `error`;
  an operation that fails after mutating (only `move` can) returns the
  partially mutated document, exactly as the Go code leaves it.
-/

namespace JsonPatch

/-- The Go numeric types accepted by getNumericValue. -/
inductive NumKind where
  | int
  | int32
  | int64
  | float64
deriving DecidableEq

/-- A JSON-like document value (Go: nested map[string]any / []any / scalars). -/
inductive Value where
  | null
  | bool (b : Bool)
  | num (k : NumKind) (q : ℚ)
  | str (s : String)
  | arr (elems : List Value)
  | obj (fields : List (String × Value))

/-- A document is the root map (Go: map[string]any). -/
abbrev Doc := List (String × Value)

/-- An operation is a keyed bag of fields (Go: map[string]any). -/
abbrev Op := List (String × Value)

/-- Lookup in an association-list map (Go: v, ok := m[k]). -/
def objGet : List (String × Value) → String → Option Value
  | [], _ => none
  | (k, v) :: rest, key => if k = key then some v else objGet rest key

/-- Write to an association-list map (Go: m[k] = v), creating the key if absent. -/
def objSet : List (String × Value) → String → Value → List (String × Value)
  | [], key, v => [(key, v)]
  | (k, w) :: rest, key, v =>
    if k = key then (k, v) :: rest else (k, w) :: objSet rest key v

/-- Delete from an association-list map (Go: delete(m, k)). -/
def objDel : List (String × Value) → String → List (String × Value)
  | [], _ => []
  | (k, w) :: rest, key => if k = key then rest else (k, w) :: objDel rest key

/-- Go getNumericValue: float64, int, int32 and int64 coerce to a double; every
other value is rejected. -/
def getNumericValue : Value → Option ℚ
  | .num _ q => some q
  | _ => none

/-- Go int(f) on a double: truncation toward zero. -/
def truncToInt (q : ℚ) : Int := q.num.tdiv q.den

/-- The UTF-16 width of one codepoint (Go: 1 unit, or 2 if r > 0xFFFF). -/
def runeUtf16Width (c : Char) : Nat := if 0xFFFF < c.toNat then 2 else 1

/-- The loop body of Go utf16OffsetToRuneIndex: walk codepoints accumulating
UTF-16 width until adding the next width would exceed the target offset,
counting the codepoints passed. -/
def utf16WalkIdx : List Char → Nat → Int → Nat
  | [], _, _ => 0
  | c :: rest, codeUnits, jsOffset =>
    let unit := runeUtf16Width c
    if jsOffset < (codeUnits + unit : Int) then 0
    else 1 + utf16WalkIdx rest (codeUnits + unit) jsOffset

/-- Go utf16OffsetToRuneIndex: converts a JavaScript UTF-16 offset to a rune
index; non-positive offsets map to 0. -/
def utf16OffsetToRuneIndex (text : String) (jsOffset : Int) : Nat :=
  if jsOffset ≤ 0 then 0 else utf16WalkIdx text.data 0 jsOffset

/-- Go utf16Length: the length of the string in UTF-16 code units. -/
def utf16Length (text : String) : Nat :=
  text.data.foldl (fun l c => l + runeUtf16Width c) 0

/-- Go utf16LenToRuneLen: converts a UTF-16 length anchored at jsStart to a
rune length, as the difference of two offset translations. -/
def utf16LenToRuneLen (text : String) (jsStart jsLen : Int) : Int :=
  if jsLen ≤ 0 then 0
  else (utf16OffsetToRuneIndex text (jsStart + jsLen) : Int)
    - (utf16OffsetToRuneIndex text jsStart : Int)

/-- Character-level worker for Go decodePointerSegment: unescape the RFC 6901
sequences, rejecting a trailing tilde and any other escape. -/
def decodeSegChars : List Char → Option (List Char)
  | [] => some []
  | c :: rest =>
    if c = '~' then
      match rest with
      | [] => none
      | d :: rest2 =>
        if d = '0' then (decodeSegChars rest2).map (fun t => '~' :: t)
        else if d = '1' then (decodeSegChars rest2).map (fun t => '/' :: t)
        else none
    else (decodeSegChars rest).map (fun t => c :: t)

/-- Go decodePointerSegment: unescape a JSON pointer token. -/
def decodePointerSegment (seg : String) : Option String :=
  (decodeSegChars seg.data).map String.mk

/-- Go strings.TrimPrefix(s, "/"): remove one leading slash if present. -/
def trimSlash (s : String) : String :=
  match s.data with
  | '/' :: rest => String.mk rest
  | _ => s

/-- Character-level worker for Go strings.Split(s, "/"). -/
def splitSegsChars : List Char → List (List Char)
  | [] => [[]]
  | c :: rest =>
    let r := splitSegsChars rest
    if c = '/' then [] :: r
    else
      match r with
      | s :: tail => (c :: s) :: tail
      | [] => [[c]]

/-- Go strings.Split(strings.TrimPrefix(pathRaw, "/"), "/"). -/
def splitPath (pathRaw : String) : List String :=
  (splitSegsChars (trimSlash pathRaw).data).map String.mk

/-- Character-level worker for Go strings.HasPrefix. -/
def listLeads : List Char → List Char → Bool
  | [], _ => true
  | _ :: _, [] => false
  | p :: ps, c :: cs => p = c && listLeads ps cs

/-- Go strings.HasPrefix(pathRaw + "/", fromRaw + "/"), the descendant check of
the move operation. -/
def movePreCheck (pathRaw fromRaw : String) : Bool :=
  listLeads (fromRaw.data ++ [ '/' ]) (pathRaw.data ++ [ '/' ])

/-- Go strconv.Atoi digit loop. -/
def digitsLoop : List Char → Nat → Option Nat
  | [], acc => some acc
  | c :: rest, acc =>
    if c.isDigit then digitsLoop rest (acc * 10 + (c.toNat - 48)) else none

/-- Digits of a nonempty decimal numeral. -/
def digitsToNat : List Char → Option Nat
  | [] => none
  | ds => digitsLoop ds 0

/-- Go strconv.Atoi: optional sign followed by at least one digit.  (The Go
function additionally rejects values overflowing the machine int; no claim
exercises such indices.) -/
def atoi (s : String) : Option Int :=
  match s.data with
  | '-' :: rest => (digitsToNat rest).map (fun n => -(n : Int))
  | '+' :: rest => (digitsToNat rest).map (fun n => (n : Int))
  | ds => (digitsToNat ds).map (fun n => (n : Int))

/-- One navigation step recorded during resolution: the map key or the slice
index actually traversed.  This is the pure rendering of the reference chain
through which Go sees every in-place mutation. -/
inductive Step where
  | key (k : String)
  | idx (i : Nat)

/-- Interpretation of the final path token (Go: finalKey for a map parent,
finalIndex for a slice parent). -/
inductive FinalSel where
  | key (k : String)
  | idx (i : Int)

/-- The result of Go resolvePath: the prefix walked (standing for the
grandparent linkage), the container owning the final token, the decoded final
token, and its interpretation. -/
structure Resolved where
  pre : List Step
  parent : Value
  leaf : String
  sel : FinalSel

/-- Pure navigation along a recorded prefix. -/
def getAt : Value → List Step → Option Value
  | v, [] => some v
  | .obj m, .key k :: rest =>
    match objGet m k with
    | some child => getAt child rest
    | none => none
  | .arr l, .idx i :: rest =>
    match l.get? i with
    | some child => getAt child rest
    | none => none
  | _, _ => none

/-- Functional update along a recorded prefix: the pure rendering of the Go
write path (map mutation in place, slice write-back into the grandparent),
which coincide on tree-shaped documents. -/
def setAt : Value → List Step → Value → Value
  | _, [], newV => newV
  | .obj m, .key k :: rest, newV =>
    match objGet m k with
    | some child => .obj (objSet m k (setAt child rest newV))
    | none => .obj m
  | .arr l, .idx i :: rest, newV =>
    match l.get? i with
    | some child => .arr (l.set i (setAt child rest newV))
    | none => .arr l
  | v, _, _ => v

/-- Errors, one constructor per fmt.Errorf site of the Go code (payloads keep
the data of the corresponding format arguments that the claims need). -/
inductive Err where
  | invalidOpFormat
  | rootMissingValue (opType pathRaw : String)
  | rootValueNotMap (opType pathRaw : String)
  | rootUnsupported (opType pathRaw : String)
  | invalidPointer (pathRaw : String)
  | segNotFound (seg pathRaw : String)
  | segNotInt (seg pathRaw : String)
  | idxOutOfBounds (idx : Int) (len : Nat) (seg pathRaw : String)
  | nonContainerMid (pathRaw : String)
  | nonContainerFinal (pathRaw : String)
  | missingField (opName field pathRaw : String)
  | opIdxOutOfBounds (idx : Int) (opName pathRaw : String) (len : Nat)
  | badStrParams (opName pathRaw : String)
  | targetKeyNotFound (key opName pathRaw : String)
  | strTargetIdxOOB (idx : Int) (opName pathRaw : String)
  | parentNotContainer (opName pathRaw : String)
  | targetNotString (opName pathRaw : String)
  | invalidPos (pos : Int) (opName : String) (len : Nat) (pathRaw : String)
  | lenWrongType (pathRaw : String)
  | strOrLenRequired (pathRaw : String)
  | invalidRange (pos length : Int) (pathRaw : String)
  | incNotNumber (pathRaw : String)
  | targetNotNumber (pathRaw : String)
  | testFailed (pathRaw : String)
  | movePreConflict (fromRaw pathRaw : String)
  | unknownOp (opType pathRaw : String)

/-- Interpretation of the final token against the container that owns it
(Go resolvePath, the i == last branch): a map parent takes the token verbatim,
a slice parent takes the append marker or an integer, anything else is the
before-final-segment non-container error. -/
def finalStep (pathRaw leaf : String) (parent : Value) : Except Err FinalSel :=
  match parent with
  | .obj _ => .ok (.key leaf)
  | .arr l =>
    if leaf = "-" then .ok (.idx (l.length : Int))
    else
      match atoi leaf with
      | some i => .ok (.idx i)
      | none => .error (.segNotInt leaf pathRaw)
  | _ => .error (.nonContainerFinal pathRaw)

/-- The walk of Go resolvePath over the split segments: decode each token; at a
non-final token navigate (map key must exist, slice index must be an in-bounds
integer, anything else is a non-container traversal); at the final token call
finalStep, recording the prefix walked. -/
def resolveGo (pathRaw : String) (cur : Value) : List String → Except Err Resolved
  | [] => .error (.invalidPointer pathRaw)
  | seg :: rest =>
    match decodePointerSegment seg with
    | none => .error (.invalidPointer pathRaw)
    | some s =>
      match rest with
      | [] => (finalStep pathRaw s cur).map (fun sel => ⟨[], cur, s, sel⟩)
      | _ :: _ =>
        match cur with
        | .obj m =>
          match objGet m s with
          | none => .error (.segNotFound s pathRaw)
          | some v =>
            (resolveGo pathRaw v rest).map
              (fun r => ⟨.key s :: r.pre, r.parent, r.leaf, r.sel⟩)
        | .arr l =>
          match atoi s with
          | none => .error (.segNotInt s pathRaw)
          | some i =>
            if i < 0 ∨ (l.length : Int) ≤ i then
              .error (.idxOutOfBounds i l.length s pathRaw)
            else
              match l.get? i.toNat with
              | some v =>
                (resolveGo pathRaw v rest).map
                  (fun r => ⟨.idx i.toNat :: r.pre, r.parent, r.leaf, r.sel⟩)
              | none => .error (.idxOutOfBounds i l.length s pathRaw)
        | _ => .error (.nonContainerMid pathRaw)

/-- Go resolvePath: empty path returns the document itself as the container;
otherwise split the path and walk. -/
def resolvePath (doc : Doc) (pathRaw : String) : Except Err Resolved :=
  if pathRaw = "" then .ok ⟨[], .obj doc, "", .key ""⟩
  else resolveGo pathRaw (.obj doc) (splitPath pathRaw)

/-- Unwrap the root after a functional update; the root stays a map for every
write a successful resolution can produce. -/
def setAtDoc (doc : Doc) (pre : List Step) (q : Value) : Doc :=
  match setAt (.obj doc) pre q with
  | .obj m => m
  | _ => doc

/-- Go insertValueIntoSlice: insert at an index ≤ length, shifting the tail. -/
def insertValueIntoSlice (l : List Value) (i : Nat) (v : Value) : List Value :=
  l.take i ++ v :: l.drop i

/-- Go removeValueFromSlice: remove the element at an in-bounds index,
returning the shortened slice and the removed value. -/
def removeValueFromSlice (l : List Value) (i : Nat) : List Value × Value :=
  (l.take i ++ l.drop (i + 1), (l.get? i).getD .null)

/-- Read the value selected by a resolution (observer used by the claim
statements; the handlers inline the same reads with their own errors). -/
def readSel (parent : Value) (sel : FinalSel) : Option Value :=
  match parent, sel with
  | .obj m, .key k => objGet m k
  | .arr l, .idx i => if i < 0 then none else l.get? i.toNat
  | _, _ => none

/-- Overwrite the value selected by a resolution. -/
def writeSel (parent : Value) (sel : FinalSel) (v : Value) : Value :=
  match parent, sel with
  | .obj m, .key k => .obj (objSet m k v)
  | .arr l, .idx i => .arr (l.set i.toNat v)
  | p, _ => p

/-- Resolve a path and read the value there (observer for claim statements). -/
def readAtPath (doc : Doc) (pathRaw : String) : Option Value :=
  match resolvePath doc pathRaw with
  | .ok r => readSel r.parent r.sel
  | .error _ => none

mutual

/-- Go jsonEqual: numbers compare by coerced double value regardless of tag;
strings, booleans and null by identity; maps by key set and recursive values;
slices pairwise.  (The textual-representation fallback of the Go code is
unreachable over this value type.) -/
def jsonEqual : Value → Value → Bool
  | .num _ aq, b =>
    match b with
    | .num _ bq => aq == bq
    | _ => false
  | .str s, b =>
    match b with
    | .str t => s == t
    | _ => false
  | .bool x, b =>
    match b with
    | .bool y => x == y
    | _ => false
  | .null, b =>
    match b with
    | .null => true
    | _ => false
  | .obj m, b =>
    match b with
    | .obj bm => (m.length == bm.length) && jsonEqualFields m bm
    | _ => false
  | .arr l, b =>
    match b with
    | .arr bl => (l.length == bl.length) && jsonEqualElems l bl
    | _ => false

def jsonEqualFields : List (String × Value) → List (String × Value) → Bool
  | [], _ => true
  | (k, v) :: rest, bm =>
    (match objGet bm k with
     | some bv => jsonEqual v bv
     | none => false)
    && jsonEqualFields rest bm

def jsonEqualElems : List Value → List Value → Bool
  | [], _ => true
  | _ :: _, [] => false
  | a :: as, b :: bs => jsonEqual a b && jsonEqualElems as bs

end

/-- The shared insertion tail of the add, copy and move handlers (the Go code
repeats it verbatim in each case): set a map key unconditionally, or insert
into a slice at an index within [0, length] and write the new slice back. -/
def insertAsAdd (doc : Doc) (opName pathRaw : String) (r : Resolved) (v : Value) :
    Doc × Option Err :=
  match r.parent, r.sel with
  | .obj m, .key k => (setAtDoc doc r.pre (.obj (objSet m k v)), none)
  | .arr l, .idx i =>
    if i < 0 ∨ (l.length : Int) < i then
      (doc, some (.opIdxOutOfBounds i opName pathRaw l.length))
    else (setAtDoc doc r.pre (.arr (insertValueIntoSlice l i.toNat v)), none)
  | _, _ => (doc, some (.nonContainerFinal pathRaw))

/-- Go Apply, case add (non-root). -/
def applyAdd (doc : Doc) (op : Op) (pathRaw : String) (r : Resolved) :
    Doc × Option Err :=
  match objGet op "value" with
  | none => (doc, some (.missingField "add" "value" pathRaw))
  | some v => insertAsAdd doc "add" pathRaw r v

/-- Go Apply, case remove (non-root). -/
def applyRemove (doc : Doc) (_op : Op) (pathRaw : String) (r : Resolved) :
    Doc × Option Err :=
  match r.parent, r.sel with
  | .obj m, .key k =>
    match objGet m k with
    | none => (doc, some (.segNotFound k pathRaw))
    | some _ => (setAtDoc doc r.pre (.obj (objDel m k)), none)
  | .arr l, .idx i =>
    if i < 0 ∨ (l.length : Int) ≤ i then
      (doc, some (.opIdxOutOfBounds i "remove" pathRaw l.length))
    else (setAtDoc doc r.pre (.arr (removeValueFromSlice l i.toNat).1), none)
  | _, _ => (doc, some (.nonContainerFinal pathRaw))

/-- Go Apply, case replace (non-root): like add but the map key must already
exist and the slice index must be strictly in bounds. -/
def applyReplace (doc : Doc) (op : Op) (pathRaw : String) (r : Resolved) :
    Doc × Option Err :=
  match objGet op "value" with
  | none => (doc, some (.missingField "replace" "value" pathRaw))
  | some v =>
    match r.parent, r.sel with
    | .obj m, .key k =>
      match objGet m k with
      | none => (doc, some (.segNotFound k pathRaw))
      | some _ => (setAtDoc doc r.pre (.obj (objSet m k v)), none)
    | .arr l, .idx i =>
      if i < 0 ∨ (l.length : Int) ≤ i then
        (doc, some (.opIdxOutOfBounds i "replace" pathRaw l.length))
      else (setAtDoc doc r.pre (.arr (l.set i.toNat v)), none)
    | _, _ => (doc, some (.nonContainerFinal pathRaw))

/-- The string-target read shared by str_ins and str_del (the Go code repeats
it verbatim, with the operation name in the messages). -/
def readStringAt (opName pathRaw : String) (parent : Value) (sel : FinalSel) :
    Except Err String :=
  match parent, sel with
  | .obj m, .key k =>
    match objGet m k with
    | some (.str s) => .ok s
    | some _ => .error (.targetNotString opName pathRaw)
    | none => .error (.targetKeyNotFound k opName pathRaw)
  | .arr l, .idx i =>
    if i < 0 ∨ (l.length : Int) ≤ i then
      .error (.strTargetIdxOOB i opName pathRaw)
    else
      match l.get? i.toNat with
      | some (.str s) => .ok s
      | _ => .error (.targetNotString opName pathRaw)
  | _, _ => .error (.parentNotContainer opName pathRaw)

/-- Go Apply, case str_ins. -/
def applyStrIns (doc : Doc) (op : Op) (pathRaw : String) (r : Resolved) :
    Doc × Option Err :=
  match (objGet op "pos").bind getNumericValue, objGet op "str" with
  | some posQ, some (.str ins) =>
    match readStringAt "str_ins" pathRaw r.parent r.sel with
    | .error e => (doc, some e)
    | .ok cur =>
      if (utf16Length cur : Int) < truncToInt posQ then
        (doc, some (.invalidPos (truncToInt posQ) "str_ins" (utf16Length cur) pathRaw))
      else
        let pos := utf16OffsetToRuneIndex cur (truncToInt posQ)
        let runes := cur.data
        if runes.length < pos then
          (doc, some (.invalidPos (pos : Int) "str_ins" runes.length pathRaw))
        else
          (setAtDoc doc r.pre
            (writeSel r.parent r.sel
              (.str (String.mk (runes.take pos ++ ins.data ++ runes.drop pos)))), none)
  | _, _ => (doc, some (.badStrParams "str_ins" pathRaw))

/-- The deletion tail of Go str_del once the rune length has been selected:
range check, then delete the codepoint span and write back. -/
def strDelFinish (doc : Doc) (pathRaw : String) (r : Resolved) (cur : String)
    (pos : Nat) (length : Int) : Doc × Option Err :=
  let runes := cur.data
  if length < 0 ∨ (runes.length : Int) < (pos : Int) + length then
    (doc, some (.invalidRange (pos : Int) length pathRaw))
  else
    (setAtDoc doc r.pre
      (writeSel r.parent r.sel
        (.str (String.mk (runes.take pos ++ runes.drop (pos + length.toNat))))), none)

/-- Go op["str"].(string): the str field when it is present as a string (the
strPresent flag of the str_del case). -/
def strFieldOf (op : Op) : Option String :=
  match objGet op "str" with
  | some (.str s) => some s
  | _ => none

/-- Go Apply, case str_del: the deletion length comes from the codepoint count
of the str field if that is present as a string, else from the len field
translated from UTF-16, else the operation fails. -/
def applyStrDel (doc : Doc) (op : Op) (pathRaw : String) (r : Resolved) :
    Doc × Option Err :=
  match (objGet op "pos").bind getNumericValue with
  | none => (doc, some (.badStrParams "str_del" pathRaw))
  | some posQ =>
    match readStringAt "str_del" pathRaw r.parent r.sel with
    | .error e => (doc, some e)
    | .ok cur =>
      if (utf16Length cur : Int) < truncToInt posQ then
        (doc, some (.invalidPos (truncToInt posQ) "str_del" (utf16Length cur) pathRaw))
      else
        let pos := utf16OffsetToRuneIndex cur (truncToInt posQ)
        match strFieldOf op with
        | some s => strDelFinish doc pathRaw r cur pos (s.data.length : Int)
        | none =>
          match objGet op "len" with
          | some lv =>
            match getNumericValue lv with
            | none => (doc, some (.lenWrongType pathRaw))
            | some lq =>
              strDelFinish doc pathRaw r cur pos
                (utf16LenToRuneLen cur (truncToInt posQ) (truncToInt lq))
          | none => (doc, some (.strOrLenRequired pathRaw))

/-- The numeric-target read of Go case inc. -/
def readNumTarget (opName pathRaw : String) (parent : Value) (sel : FinalSel) :
    Except Err ℚ :=
  match parent, sel with
  | .obj m, .key k =>
    match objGet m k with
    | none => .error (.targetKeyNotFound k opName pathRaw)
    | some cur =>
      match getNumericValue cur with
      | none => .error (.targetNotNumber pathRaw)
      | some c => .ok c
  | .arr l, .idx i =>
    if i < 0 ∨ (l.length : Int) ≤ i then
      .error (.opIdxOutOfBounds i opName pathRaw l.length)
    else
      match (l.get? i.toNat).bind getNumericValue with
      | none => .error (.targetNotNumber pathRaw)
      | some c => .ok c
  | _, _ => .error (.parentNotContainer opName pathRaw)

/-- The value stored by Go case inc: the double sum truncated to the machine
int (finalValueToStore := int(currentNumAsFloat + incOpValFloat)). -/
def incStored (c d : ℚ) : Value := .num .int ((truncToInt (c + d) : Int) : ℚ)

/-- Go Apply, case inc. -/
def applyInc (doc : Doc) (op : Op) (pathRaw : String) (r : Resolved) :
    Doc × Option Err :=
  match objGet op "inc" with
  | none => (doc, some (.missingField "inc" "inc" pathRaw))
  | some iv =>
    match getNumericValue iv with
    | none => (doc, some (.incNotNumber pathRaw))
    | some d =>
      match readNumTarget "inc" pathRaw r.parent r.sel with
      | .error e => (doc, some e)
      | .ok c => (setAtDoc doc r.pre (writeSel r.parent r.sel (incStored c d)), none)

/-- The from-side read of Go cases copy and move (errors phrased like the
resolver, with the zero-valued key for a slice parent). -/
def readFromTarget (fromRaw : String) (parent : Value) (sel : FinalSel) :
    Except Err Value :=
  match parent, sel with
  | .obj m, .key k =>
    match objGet m k with
    | none => .error (.segNotFound k fromRaw)
    | some v => .ok v
  | .arr l, .idx i =>
    if i < 0 ∨ (l.length : Int) ≤ i then .error (.idxOutOfBounds i l.length "" fromRaw)
    else .ok ((l.get? i.toNat).getD .null)
  | _, _ => .error (.nonContainerFinal fromRaw)

/-- Go Apply, case copy: resolve from, read without removing, insert as add. -/
def applyCopy (doc : Doc) (op : Op) (pathRaw : String) (r : Resolved) :
    Doc × Option Err :=
  match objGet op "from" with
  | some (.str fromRaw) =>
    match resolvePath doc fromRaw with
    | .error e => (doc, some e)
    | .ok fr =>
      match readFromTarget fromRaw fr.parent fr.sel with
      | .error e => (doc, some e)
      | .ok v => insertAsAdd doc "copy" pathRaw r v
  | _ => (doc, some (.missingField "copy" "from" pathRaw))

/-- The tail of Go case move after the removal: re-resolve the destination
path against the updated document and insert as add; a failure here leaves the
removal applied. -/
def moveFinish (doc1 : Doc) (pathRaw : String) (v : Value) : Doc × Option Err :=
  match resolvePath doc1 pathRaw with
  | .error e => (doc1, some e)
  | .ok r2 => insertAsAdd doc1 "move" pathRaw r2 v

/-- Go Apply, case move: descendant check, resolve from, remove there (writing
the shortened container back), then re-resolve the destination and insert.
The initial resolution of the destination path (performed by the dispatcher
before the switch, and checked for errors there) is discarded and redone. -/
def applyMove (doc : Doc) (op : Op) (pathRaw : String) (_r : Resolved) :
    Doc × Option Err :=
  match objGet op "from" with
  | some (.str fromRaw) =>
    if movePreCheck pathRaw fromRaw then (doc, some (.movePreConflict fromRaw pathRaw))
    else
      match resolvePath doc fromRaw with
      | .error e => (doc, some e)
      | .ok fr =>
        match fr.parent, fr.sel with
        | .obj m, .key k =>
          match objGet m k with
          | none => (doc, some (.segNotFound k fromRaw))
          | some v => moveFinish (setAtDoc doc fr.pre (.obj (objDel m k))) pathRaw v
        | .arr l, .idx i =>
          if i < 0 ∨ (l.length : Int) ≤ i then
            (doc, some (.idxOutOfBounds i l.length "" fromRaw))
          else
            moveFinish (setAtDoc doc fr.pre (.arr (removeValueFromSlice l i.toNat).1))
              pathRaw ((removeValueFromSlice l i.toNat).2)
        | _, _ => (doc, some (.nonContainerFinal fromRaw))
  | _ => (doc, some (.missingField "move" "from" pathRaw))

/-- The target read of Go case test. -/
def readTestTarget (pathRaw : String) (parent : Value) (sel : FinalSel) :
    Except Err Value :=
  match parent, sel with
  | .obj m, .key k =>
    match objGet m k with
    | none => .error (.segNotFound k pathRaw)
    | some v => .ok v
  | .arr l, .idx i =>
    if i < 0 ∨ (l.length : Int) ≤ i then
      .error (.opIdxOutOfBounds i "test" pathRaw l.length)
    else .ok ((l.get? i.toNat).getD .null)
  | _, _ => .error (.nonContainerFinal pathRaw)

/-- Go Apply, case test: read the current value and compare with the value
field through jsonEqual; never mutates. -/
def applyTest (doc : Doc) (op : Op) (pathRaw : String) (r : Resolved) :
    Doc × Option Err :=
  match objGet op "value" with
  | none => (doc, some (.missingField "test" "value" pathRaw))
  | some w =>
    match readTestTarget pathRaw r.parent r.sel with
    | .error e => (doc, some e)
    | .ok cur => if jsonEqual cur w then (doc, none) else (doc, some (.testFailed pathRaw))

/-- Go Apply, the root-path special case: replace and add require a map value
and install its entries after clearing the document; remove clears; every
other kind is unsupported at the root. -/
def applyRoot (doc : Doc) (op : Op) (opType pathRaw : String) : Doc × Option Err :=
  if opType = "replace" ∨ opType = "add" then
    match objGet op "value" with
    | none => (doc, some (.rootMissingValue opType pathRaw))
    | some (.obj m) => (m, none)
    | some _ => (doc, some (.rootValueNotMap opType pathRaw))
  else if opType = "remove" then ([], none)
  else (doc, some (.rootUnsupported opType pathRaw))

/-- One iteration of the Go Apply loop: validate the envelope, handle the root
case, otherwise resolve the path and dispatch on the operation kind. -/
def applyOp (doc : Doc) (op : Op) : Doc × Option Err :=
  match objGet op "op", objGet op "path" with
  | some (.str opType), some (.str pathRaw) =>
    if pathRaw = "" then applyRoot doc op opType pathRaw
    else
      match resolvePath doc pathRaw with
      | .error e => (doc, some e)
      | .ok r =>
        if opType = "add" then applyAdd doc op pathRaw r
        else if opType = "remove" then applyRemove doc op pathRaw r
        else if opType = "replace" then applyReplace doc op pathRaw r
        else if opType = "str_ins" then applyStrIns doc op pathRaw r
        else if opType = "str_del" then applyStrDel doc op pathRaw r
        else if opType = "inc" then applyInc doc op pathRaw r
        else if opType = "copy" then applyCopy doc op pathRaw r
        else if opType = "move" then applyMove doc op pathRaw r
        else if opType = "test" then applyTest doc op pathRaw r
        else (doc, some (.unknownOp opType pathRaw))
  | _, _ => (doc, some .invalidOpFormat)

/-- Go Apply: fold the operations left to right, stopping at the first error,
which is returned together with the document as mutated so far. -/
def Apply (doc : Doc) : List Op → Doc × Option Err
  | [] => (doc, none)
  | op :: rest =>
    match applyOp doc op with
    | (d, some e) => (d, some e)
    | (d, none) => Apply d rest

/-! Association-list map lemmas. -/

theorem objGet_objSet_self (m : List (String × Value)) (k : String) (v : Value) :
    objGet (objSet m k v) k = some v := by
  induction m with
  | nil => simp [objSet, objGet]
  | cons a rest ih =>
    obtain ⟨ak, av⟩ := a
    by_cases h : ak = k
    · simp [objSet, h, objGet]
    · simp [objSet, h, objGet, ih]

theorem objSet_objSet_self (m : List (String × Value)) (k : String) (a b : Value) :
    objSet (objSet m k a) k b = objSet m k b := by
  induction m with
  | nil => simp [objSet]
  | cons p rest ih =>
    obtain ⟨pk, pv⟩ := p
    by_cases h : pk = k
    · simp [objSet, h]
    · simp [objSet, h, ih]

theorem objSet_objGet_self (m : List (String × Value)) (k : String) (v : Value)
    (h : objGet m k = some v) : objSet m k v = m := by
  induction m with
  | nil => simp [objGet] at h
  | cons p rest ih =>
    obtain ⟨pk, pv⟩ := p
    by_cases hk : pk = k
    · simp [objGet, hk] at h
      simp [objSet, hk, h]
    · simp [objGet, hk] at h
      simp [objSet, hk, ih h]

theorem objDel_objSet_of_absent (m : List (String × Value)) (k : String) (v : Value)
    (h : objGet m k = none) : objDel (objSet m k v) k = m := by
  induction m with
  | nil => simp [objSet, objDel]
  | cons p rest ih =>
    obtain ⟨pk, pv⟩ := p
    by_cases hk : pk = k
    · simp [objGet, hk] at h
    · simp [objGet, hk] at h
      simp [objSet, hk, objDel, ih h]

theorem get?_set_self (l : List Value) (n : Nat) (v : Value) (h : n < l.length) :
    (l.set n v).get? n = some v := by
  induction l generalizing n with
  | nil => simp at h
  | cons a as ih =>
    cases n with
    | zero => simp
    | succ m => simpa using ih m (by simpa using h)

theorem set_get?_self (l : List Value) (n : Nat) (v : Value)
    (h : l.get? n = some v) : l.set n v = l := by
  induction l generalizing n with
  | nil => simp only [List.get?] at h; exact absurd h (by simp)
  | cons a as ih =>
    cases n with
    | zero =>
      simp only [List.get?] at h
      have : a = v := by injection h
      simp [this]
    | succ m =>
      simp only [List.get?] at h
      simp [ih m h]

/-! Navigation and functional-update lemmas. -/

theorem getAt_setAt_same (pre : List Step) :
    ∀ (v q p : Value), getAt v pre = some p → getAt (setAt v pre q) pre = some q := by
  induction pre with
  | nil => intro v q p _; simp [getAt, setAt]
  | cons s rest ih =>
    intro v q p h
    cases s with
    | key k =>
      cases v with
      | obj m =>
        simp only [getAt] at h
        cases hg : objGet m k with
        | none => rw [hg] at h; exact absurd h (by simp)
        | some child =>
          rw [hg] at h
          simp only [setAt, hg, getAt, objGet_objSet_self]
          exact ih child q p h
      | null => exact absurd h (by simp [getAt])
      | bool b => exact absurd h (by simp [getAt])
      | num nk nq => exact absurd h (by simp [getAt])
      | str sv => exact absurd h (by simp [getAt])
      | arr l => exact absurd h (by simp [getAt])
    | idx i =>
      cases v with
      | arr l =>
        simp only [getAt] at h
        cases hg : l.get? i with
        | none => rw [hg] at h; exact absurd h (by simp)
        | some child =>
          rw [hg] at h
          have hlen : i < l.length := by
            have := List.get?_eq_some.mp hg
            exact this.1
          simp only [setAt, hg, getAt, get?_set_self _ _ _ hlen]
          exact ih child q p h
      | null => exact absurd h (by simp [getAt])
      | bool b => exact absurd h (by simp [getAt])
      | num nk nq => exact absurd h (by simp [getAt])
      | str sv => exact absurd h (by simp [getAt])
      | obj m => exact absurd h (by simp [getAt])

theorem setAt_setAt_same (pre : List Step) :
    ∀ (v a b p : Value), getAt v pre = some p →
      setAt (setAt v pre a) pre b = setAt v pre b := by
  induction pre with
  | nil => intro v a b p _; simp [setAt]
  | cons s rest ih =>
    intro v a b p h
    cases s with
    | key k =>
      cases v with
      | obj m =>
        simp only [getAt] at h
        cases hg : objGet m k with
        | none => rw [hg] at h; exact absurd h (by simp)
        | some child =>
          rw [hg] at h
          simp only [setAt, hg, objGet_objSet_self, objSet_objSet_self]
          rw [ih child a b p h]
      | null => exact absurd h (by simp [getAt])
      | bool b0 => exact absurd h (by simp [getAt])
      | num nk nq => exact absurd h (by simp [getAt])
      | str sv => exact absurd h (by simp [getAt])
      | arr l => exact absurd h (by simp [getAt])
    | idx i =>
      cases v with
      | arr l =>
        simp only [getAt] at h
        cases hg : l.get? i with
        | none => rw [hg] at h; exact absurd h (by simp)
        | some child =>
          rw [hg] at h
          have hlen : i < l.length := (List.get?_eq_some.mp hg).1
          simp only [setAt, hg, get?_set_self _ _ _ hlen, List.set_set]
          rw [ih child a b p h]
      | null => exact absurd h (by simp [getAt])
      | bool b0 => exact absurd h (by simp [getAt])
      | num nk nq => exact absurd h (by simp [getAt])
      | str sv => exact absurd h (by simp [getAt])
      | obj m => exact absurd h (by simp [getAt])

theorem setAt_getAt_self (pre : List Step) :
    ∀ (v p : Value), getAt v pre = some p → setAt v pre p = v := by
  induction pre with
  | nil => intro v p h; simp [getAt] at h; simp [setAt, h]
  | cons s rest ih =>
    intro v p h
    cases s with
    | key k =>
      cases v with
      | obj m =>
        simp only [getAt] at h
        cases hg : objGet m k with
        | none => rw [hg] at h; exact absurd h (by simp)
        | some child =>
          rw [hg] at h
          simp only [setAt, hg, ih child p h, objSet_objGet_self m k child hg]
      | null => exact absurd h (by simp [getAt])
      | bool b => exact absurd h (by simp [getAt])
      | num nk nq => exact absurd h (by simp [getAt])
      | str sv => exact absurd h (by simp [getAt])
      | arr l => exact absurd h (by simp [getAt])
    | idx i =>
      cases v with
      | arr l =>
        simp only [getAt] at h
        cases hg : l.get? i with
        | none => rw [hg] at h; exact absurd h (by simp)
        | some child =>
          rw [hg] at h
          simp only [setAt, hg, ih child p h, set_get?_self l i child hg]
      | null => exact absurd h (by simp [getAt])
      | bool b => exact absurd h (by simp [getAt])
      | num nk nq => exact absurd h (by simp [getAt])
      | str sv => exact absurd h (by simp [getAt])
      | obj m => exact absurd h (by simp [getAt])

/-! Resolution lemmas: the recorded prefix navigates to the parent container,
the final selector is determined by the decoded final token, and resolution is
stable under a functional update at the recorded prefix. -/

theorem resolveGo_getAt (pathRaw : String) :
    ∀ (segs : List String) (cur : Value) (r : Resolved),
      resolveGo pathRaw cur segs = .ok r → getAt cur r.pre = some r.parent := by
  intro segs
  induction segs with
  | nil => intro cur r h; simp [resolveGo] at h
  | cons seg rest ih =>
    intro cur r h
    simp only [resolveGo] at h
    cases hd : decodePointerSegment seg with
    | none => simp only [hd] at h; exact absurd h (by simp)
    | some s =>
      simp only [hd] at h
      cases rest with
      | nil =>
        cases hf : finalStep pathRaw s cur with
        | error e => simp only [hf] at h; exact absurd h (by simp [Except.map])
        | ok sel =>
          simp only [hf, Except.map, Except.ok.injEq] at h
          subst h
          simp [getAt]
      | cons s2 rest2 =>
        cases cur with
        | obj m =>
          cases hg : objGet m s with
          | none => simp only [hg] at h; exact absurd h (by simp)
          | some v =>
            simp only [hg] at h
            cases hr : resolveGo pathRaw v (s2 :: rest2) with
            | error e => simp only [hr] at h; exact absurd h (by simp [Except.map])
            | ok r2 =>
              simp only [hr] at h
              simp only [Except.map, Except.ok.injEq] at h
              subst h
              simp only [getAt, hg]
              exact ih v r2 hr
        | arr l =>
          cases ha : atoi s with
          | none => simp only [ha] at h; exact absurd h (by simp)
          | some i =>
            simp only [ha] at h
            by_cases hb : i < 0 ∨ (l.length : Int) ≤ i
            · rw [if_pos hb] at h; exact absurd h (by simp)
            · rw [if_neg hb] at h
              cases hg : l.get? i.toNat with
              | none => simp only [hg] at h; exact absurd h (by simp)
              | some v =>
                simp only [hg] at h
                cases hr : resolveGo pathRaw v (s2 :: rest2) with
                | error e => simp only [hr] at h; exact absurd h (by simp [Except.map])
                | ok r2 =>
                  simp only [hr] at h
                  simp only [Except.map, Except.ok.injEq] at h
                  subst h
                  simp only [getAt, hg]
                  exact ih v r2 hr
        | null => exact absurd h (by simp)
        | bool b => exact absurd h (by simp)
        | num nk nq => exact absurd h (by simp)
        | str sv => exact absurd h (by simp)

theorem resolveGo_finalStep (pathRaw : String) :
    ∀ (segs : List String) (cur : Value) (r : Resolved),
      resolveGo pathRaw cur segs = .ok r → finalStep pathRaw r.leaf r.parent = .ok r.sel := by
  intro segs
  induction segs with
  | nil => intro cur r h; simp [resolveGo] at h
  | cons seg rest ih =>
    intro cur r h
    simp only [resolveGo] at h
    cases hd : decodePointerSegment seg with
    | none => simp only [hd] at h; exact absurd h (by simp)
    | some s =>
      simp only [hd] at h
      cases rest with
      | nil =>
        cases hf : finalStep pathRaw s cur with
        | error e => simp only [hf] at h; exact absurd h (by simp [Except.map])
        | ok sel =>
          simp only [hf, Except.map, Except.ok.injEq] at h
          subst h
          exact hf
      | cons s2 rest2 =>
        cases cur with
        | obj m =>
          cases hg : objGet m s with
          | none => simp only [hg] at h; exact absurd h (by simp)
          | some v =>
            simp only [hg] at h
            cases hr : resolveGo pathRaw v (s2 :: rest2) with
            | error e => simp only [hr] at h; exact absurd h (by simp [Except.map])
            | ok r2 =>
              simp only [hr] at h
              simp only [Except.map, Except.ok.injEq] at h
              subst h
              exact ih v r2 hr
        | arr l =>
          cases ha : atoi s with
          | none => simp only [ha] at h; exact absurd h (by simp)
          | some i =>
            simp only [ha] at h
            by_cases hb : i < 0 ∨ (l.length : Int) ≤ i
            · rw [if_pos hb] at h; exact absurd h (by simp)
            · rw [if_neg hb] at h
              cases hg : l.get? i.toNat with
              | none => simp only [hg] at h; exact absurd h (by simp)
              | some v =>
                simp only [hg] at h
                cases hr : resolveGo pathRaw v (s2 :: rest2) with
                | error e => simp only [hr] at h; exact absurd h (by simp [Except.map])
                | ok r2 =>
                  simp only [hr] at h
                  simp only [Except.map, Except.ok.injEq] at h
                  subst h
                  exact ih v r2 hr
        | null => exact absurd h (by simp)
        | bool b => exact absurd h (by simp)
        | num nk nq => exact absurd h (by simp)
        | str sv => exact absurd h (by simp)

theorem resolveGo_setAt (pathRaw : String) :
    ∀ (segs : List String) (cur : Value) (r : Resolved) (q : Value),
      resolveGo pathRaw cur segs = .ok r →
      resolveGo pathRaw (setAt cur r.pre q) segs =
        (finalStep pathRaw r.leaf q).map (fun sel => ⟨r.pre, q, r.leaf, sel⟩) := by
  intro segs
  induction segs with
  | nil => intro cur r q h; simp [resolveGo] at h
  | cons seg rest ih =>
    intro cur r q h
    simp only [resolveGo] at h
    cases hd : decodePointerSegment seg with
    | none => simp only [hd] at h; exact absurd h (by simp)
    | some s =>
      simp only [hd] at h
      cases rest with
      | nil =>
        cases hf : finalStep pathRaw s cur with
        | error e => simp only [hf] at h; exact absurd h (by simp [Except.map])
        | ok sel =>
          simp only [hf, Except.map, Except.ok.injEq] at h
          subst h
          simp only [setAt, resolveGo, hd]
      | cons s2 rest2 =>
        cases cur with
        | obj m =>
          cases hg : objGet m s with
          | none => simp only [hg] at h; exact absurd h (by simp)
          | some v =>
            simp only [hg] at h
            cases hr : resolveGo pathRaw v (s2 :: rest2) with
            | error e => simp only [hr] at h; exact absurd h (by simp [Except.map])
            | ok r2 =>
              simp only [hr] at h
              simp only [Except.map, Except.ok.injEq] at h
              subst h
              dsimp only
              rw [show setAt (Value.obj m) (Step.key s :: r2.pre) q
                    = Value.obj (objSet m s (setAt v r2.pre q)) from by simp only [setAt, hg]]
              rw [resolveGo.eq_def]
              simp only [hd, objGet_objSet_self]
              rw [ih v r2 q hr]
              cases hf : finalStep pathRaw r2.leaf q with
              | error e => simp [Except.map, hf]
              | ok sel => simp [Except.map, hf]
        | arr l =>
          cases ha : atoi s with
          | none => simp only [ha] at h; exact absurd h (by simp)
          | some i =>
            simp only [ha] at h
            by_cases hb : i < 0 ∨ (l.length : Int) ≤ i
            · rw [if_pos hb] at h; exact absurd h (by simp)
            · rw [if_neg hb] at h
              cases hg : l.get? i.toNat with
              | none => simp only [hg] at h; exact absurd h (by simp)
              | some v =>
                simp only [hg] at h
                cases hr : resolveGo pathRaw v (s2 :: rest2) with
                | error e => simp only [hr] at h; exact absurd h (by simp [Except.map])
                | ok r2 =>
                  simp only [hr] at h
                  simp only [Except.map, Except.ok.injEq] at h
                  subst h
                  have hlen : i.toNat < l.length := (List.get?_eq_some.mp hg).1
                  dsimp only
                  rw [show setAt (Value.arr l) (Step.idx i.toNat :: r2.pre) q
                        = Value.arr (l.set i.toNat (setAt v r2.pre q)) from by simp only [setAt, hg]]
                  rw [resolveGo.eq_def]
                  simp only [hd, ha, List.length_set, if_neg hb,
                    get?_set_self _ _ _ hlen]
                  rw [ih v r2 q hr]
                  cases hf : finalStep pathRaw r2.leaf q with
                  | error e => simp [Except.map, hf]
                  | ok sel => simp [Except.map, hf]
        | null => exact absurd h (by simp)
        | bool b => exact absurd h (by simp)
        | num nk nq => exact absurd h (by simp)
        | str sv => exact absurd h (by simp)

/-! Lifting to resolvePath and to the document root, and the write/read
round-trip used by the mutating handlers. -/

theorem obj_setAtDoc (doc : Doc) (pre : List Step) (q : Value)
    (h : pre = [] → ∃ m, q = .obj m) :
    Value.obj (setAtDoc doc pre q) = setAt (.obj doc) pre q := by
  cases pre with
  | nil =>
    obtain ⟨m, rfl⟩ := h rfl
    simp [setAtDoc, setAt]
  | cons s rest =>
    cases s with
    | key k =>
      simp only [setAtDoc, setAt]
      cases hg : objGet doc k <;> simp
    | idx i =>
      simp [setAtDoc, setAt]

theorem resolvePath_getAt (doc : Doc) (p : String) (r : Resolved)
    (h : resolvePath doc p = .ok r) : getAt (.obj doc) r.pre = some r.parent := by
  unfold resolvePath at h
  by_cases hp : p = ""
  · rw [if_pos hp] at h
    simp only [Except.ok.injEq] at h
    subst h
    simp [getAt]
  · rw [if_neg hp] at h
    exact resolveGo_getAt p _ _ r h

theorem resolvePath_finalStep (doc : Doc) (p : String) (r : Resolved)
    (h : resolvePath doc p = .ok r) : finalStep p r.leaf r.parent = .ok r.sel := by
  unfold resolvePath at h
  by_cases hp : p = ""
  · rw [if_pos hp] at h
    simp only [Except.ok.injEq] at h
    subst h
    simp [finalStep]
  · rw [if_neg hp] at h
    exact resolveGo_finalStep p _ _ r h

theorem resolvePath_setAtDoc (doc : Doc) (p : String) (r : Resolved) (q : Value)
    (hp : p ≠ "") (h : resolvePath doc p = .ok r)
    (hq : r.pre = [] → ∃ m, q = .obj m) :
    resolvePath (setAtDoc doc r.pre q) p =
      (finalStep p r.leaf q).map (fun sel => ⟨r.pre, q, r.leaf, sel⟩) := by
  unfold resolvePath
  rw [if_neg hp]
  unfold resolvePath at h
  rw [if_neg hp] at h
  rw [obj_setAtDoc doc r.pre q hq]
  exact resolveGo_setAt p (splitPath p) (.obj doc) r q h

theorem readSel_arr (l : List Value) (i : Int) (v : Value)
    (h : readSel (.arr l) (.idx i) = some v) :
    ¬ i < 0 ∧ l.get? i.toNat = some v := by
  simp only [readSel] at h
  by_cases hb : i < 0
  · rw [if_pos hb] at h
    exact absurd h (by simp)
  · rw [if_neg hb] at h
    exact ⟨hb, h⟩

theorem finalStep_writeSel (p leaf : String) (parent : Value) (sel : FinalSel)
    (x v0 : Value) (hf : finalStep p leaf parent = .ok sel)
    (hr : readSel parent sel = some v0) :
    finalStep p leaf (writeSel parent sel x) = .ok sel := by
  cases parent with
  | obj m =>
    simp only [finalStep, Except.ok.injEq] at hf
    subst hf
    simp [writeSel, finalStep]
  | arr l =>
    cases sel with
    | key k => simp [readSel] at hr
    | idx i =>
      obtain ⟨hneg, hget⟩ := readSel_arr l i v0 hr
      have hlen : i.toNat < l.length := (List.get?_eq_some.mp hget).1
      simp only [finalStep] at hf
      by_cases hdash : leaf = "-"
      · rw [if_pos hdash] at hf
        simp only [Except.ok.injEq, FinalSel.idx.injEq] at hf
        omega
      · rw [if_neg hdash] at hf
        cases ha : atoi leaf with
        | none => rw [ha] at hf; exact absurd hf (by simp)
        | some j =>
          rw [ha] at hf
          simp only [Except.ok.injEq, FinalSel.idx.injEq] at hf
          subst hf
          simp only [writeSel, finalStep]
          rw [if_neg hdash, ha]
  | null => simp [readSel] at hr
  | bool b => simp [readSel] at hr
  | num nk nq => simp [readSel] at hr
  | str sv => simp [readSel] at hr

theorem readSel_writeSel_self (parent : Value) (sel : FinalSel) (x v0 : Value)
    (hr : readSel parent sel = some v0) :
    readSel (writeSel parent sel x) sel = some x := by
  cases parent with
  | obj m =>
    cases sel with
    | key k => simp [readSel, writeSel, objGet_objSet_self]
    | idx i => simp [readSel] at hr
  | arr l =>
    cases sel with
    | key k => simp [readSel] at hr
    | idx i =>
      obtain ⟨hneg, hget⟩ := readSel_arr l i v0 hr
      have hlen : i.toNat < l.length := (List.get?_eq_some.mp hget).1
      simp only [writeSel, readSel, if_neg hneg]
      exact get?_set_self _ _ _ hlen
  | null => simp [readSel] at hr
  | bool b => simp [readSel] at hr
  | num nk nq => simp [readSel] at hr
  | str sv => simp [readSel] at hr

theorem write_roundtrip (doc : Doc) (p : String) (r : Resolved) (x v0 : Value)
    (hp : p ≠ "") (hres : resolvePath doc p = .ok r)
    (hread : readSel r.parent r.sel = some v0) :
    resolvePath (setAtDoc doc r.pre (writeSel r.parent r.sel x)) p
        = .ok ⟨r.pre, writeSel r.parent r.sel x, r.leaf, r.sel⟩ ∧
      readAtPath (setAtDoc doc r.pre (writeSel r.parent r.sel x)) p = some x := by
  have hq : r.pre = [] → ∃ m, writeSel r.parent r.sel x = .obj m := by
    intro hnil
    have hg := resolvePath_getAt doc p r hres
    rw [hnil] at hg
    simp only [getAt, Option.some.injEq] at hg
    cases r.sel with
    | key k =>
      rw [← hg]
      exact ⟨objSet doc k x, rfl⟩
    | idx i =>
      rw [← hg]
      exact ⟨doc, rfl⟩
  have hfs := resolvePath_finalStep doc p r hres
  have hre := resolvePath_setAtDoc doc p r (writeSel r.parent r.sel x) hp hres hq
  rw [finalStep_writeSel p r.leaf r.parent r.sel x v0 hfs hread] at hre
  simp only [Except.map] at hre
  refine ⟨hre, ?_⟩
  simp only [readAtPath, hre]
  exact readSel_writeSel_self r.parent r.sel x v0 hread


/-! Bridges from the readSel observer to each per-handler inline read. -/

theorem readStringAt_of_readSel (opName p : String) (parent : Value) (sel : FinalSel)
    (s : String) (h : readSel parent sel = some (.str s)) :
    readStringAt opName p parent sel = .ok s := by
  cases parent with
  | obj m =>
    cases sel with
    | key k =>
      simp only [readSel] at h
      simp [readStringAt, h]
    | idx i => simp [readSel] at h
  | arr l =>
    cases sel with
    | key k => simp [readSel] at h
    | idx i =>
      obtain ⟨hneg, hget⟩ := readSel_arr l i _ h
      have hlen : i.toNat < l.length := (List.get?_eq_some.mp hget).1
      have hb : ¬ (i < 0 ∨ (l.length : Int) ≤ i) := by omega
      rw [List.get?_eq_getElem?] at hget
      simp [readStringAt, if_neg hb, hget]
  | null => simp [readSel] at h
  | bool b => simp [readSel] at h
  | num nk nq => simp [readSel] at h
  | str sv => simp [readSel] at h

theorem readNumTarget_of_readSel (opName p : String) (parent : Value) (sel : FinalSel)
    (cv : Value) (c : ℚ) (h : readSel parent sel = some cv)
    (hn : getNumericValue cv = some c) :
    readNumTarget opName p parent sel = .ok c := by
  cases parent with
  | obj m =>
    cases sel with
    | key k =>
      simp only [readSel] at h
      simp [readNumTarget, h, hn]
    | idx i => simp [readSel] at h
  | arr l =>
    cases sel with
    | key k => simp [readSel] at h
    | idx i =>
      obtain ⟨hneg, hget⟩ := readSel_arr l i _ h
      have hlen : i.toNat < l.length := (List.get?_eq_some.mp hget).1
      have hb : ¬ (i < 0 ∨ (l.length : Int) ≤ i) := by omega
      rw [List.get?_eq_getElem?] at hget
      simp [readNumTarget, if_neg hb, hget, hn]
  | null => simp [readSel] at h
  | bool b => simp [readSel] at h
  | num nk nq => simp [readSel] at h
  | str sv => simp [readSel] at h

theorem readTestTarget_of_readSel (p : String) (parent : Value) (sel : FinalSel)
    (v : Value) (h : readSel parent sel = some v) :
    readTestTarget p parent sel = .ok v := by
  cases parent with
  | obj m =>
    cases sel with
    | key k =>
      simp only [readSel] at h
      simp [readTestTarget, h]
    | idx i => simp [readSel] at h
  | arr l =>
    cases sel with
    | key k => simp [readSel] at h
    | idx i =>
      obtain ⟨hneg, hget⟩ := readSel_arr l i _ h
      have hlen : i.toNat < l.length := (List.get?_eq_some.mp hget).1
      have hb : ¬ (i < 0 ∨ (l.length : Int) ≤ i) := by omega
      rw [List.get?_eq_getElem?] at hget
      simp [readTestTarget, if_neg hb, hget]
  | null => simp [readSel] at h
  | bool b => simp [readSel] at h
  | num nk nq => simp [readSel] at h
  | str sv => simp [readSel] at h

theorem readFromTarget_of_readSel (p : String) (parent : Value) (sel : FinalSel)
    (v : Value) (h : readSel parent sel = some v) :
    readFromTarget p parent sel = .ok v := by
  cases parent with
  | obj m =>
    cases sel with
    | key k =>
      simp only [readSel] at h
      simp [readFromTarget, h]
    | idx i => simp [readSel] at h
  | arr l =>
    cases sel with
    | key k => simp [readSel] at h
    | idx i =>
      obtain ⟨hneg, hget⟩ := readSel_arr l i _ h
      have hlen : i.toNat < l.length := (List.get?_eq_some.mp hget).1
      have hb : ¬ (i < 0 ∨ (l.length : Int) ≤ i) := by omega
      rw [List.get?_eq_getElem?] at hget
      simp [readFromTarget, if_neg hb, hget]
  | null => simp [readSel] at h
  | bool b => simp [readSel] at h
  | num nk nq => simp [readSel] at h
  | str sv => simp [readSel] at h

/-! The dispatcher reaches each handler once the envelope is valid, the path
is non-root and resolution succeeds. -/

theorem applyOp_kind_add (doc : Doc) (op : Op) (p : String) (r : Resolved)
    (hop : objGet op "op" = some (.str "add"))
    (hpath : objGet op "path" = some (.str p))
    (hp : p ≠ "") (hres : resolvePath doc p = .ok r) :
    applyOp doc op = applyAdd doc op p r := by
  simp only [applyOp, hop, hpath, if_neg hp, hres]
  simp

theorem applyOp_kind_remove (doc : Doc) (op : Op) (p : String) (r : Resolved)
    (hop : objGet op "op" = some (.str "remove"))
    (hpath : objGet op "path" = some (.str p))
    (hp : p ≠ "") (hres : resolvePath doc p = .ok r) :
    applyOp doc op = applyRemove doc op p r := by
  simp only [applyOp, hop, hpath, if_neg hp, hres]
  simp

theorem applyOp_kind_replace (doc : Doc) (op : Op) (p : String) (r : Resolved)
    (hop : objGet op "op" = some (.str "replace"))
    (hpath : objGet op "path" = some (.str p))
    (hp : p ≠ "") (hres : resolvePath doc p = .ok r) :
    applyOp doc op = applyReplace doc op p r := by
  simp only [applyOp, hop, hpath, if_neg hp, hres]
  simp

theorem applyOp_kind_strIns (doc : Doc) (op : Op) (p : String) (r : Resolved)
    (hop : objGet op "op" = some (.str "str_ins"))
    (hpath : objGet op "path" = some (.str p))
    (hp : p ≠ "") (hres : resolvePath doc p = .ok r) :
    applyOp doc op = applyStrIns doc op p r := by
  simp only [applyOp, hop, hpath, if_neg hp, hres]
  simp

theorem applyOp_kind_strDel (doc : Doc) (op : Op) (p : String) (r : Resolved)
    (hop : objGet op "op" = some (.str "str_del"))
    (hpath : objGet op "path" = some (.str p))
    (hp : p ≠ "") (hres : resolvePath doc p = .ok r) :
    applyOp doc op = applyStrDel doc op p r := by
  simp only [applyOp, hop, hpath, if_neg hp, hres]
  simp

theorem applyOp_kind_inc (doc : Doc) (op : Op) (p : String) (r : Resolved)
    (hop : objGet op "op" = some (.str "inc"))
    (hpath : objGet op "path" = some (.str p))
    (hp : p ≠ "") (hres : resolvePath doc p = .ok r) :
    applyOp doc op = applyInc doc op p r := by
  simp only [applyOp, hop, hpath, if_neg hp, hres]
  simp

theorem applyOp_kind_move (doc : Doc) (op : Op) (p : String) (r : Resolved)
    (hop : objGet op "op" = some (.str "move"))
    (hpath : objGet op "path" = some (.str p))
    (hp : p ≠ "") (hres : resolvePath doc p = .ok r) :
    applyOp doc op = applyMove doc op p r := by
  simp only [applyOp, hop, hpath, if_neg hp, hres]
  simp

theorem applyOp_kind_test (doc : Doc) (op : Op) (p : String) (r : Resolved)
    (hop : objGet op "op" = some (.str "test"))
    (hpath : objGet op "path" = some (.str p))
    (hp : p ≠ "") (hres : resolvePath doc p = .ok r) :
    applyOp doc op = applyTest doc op p r := by
  simp only [applyOp, hop, hpath, if_neg hp, hres]
  simp

/-! Characterization of the inc handler and truncation facts. -/

theorem applyInc_spec (doc : Doc) (op : Op) (p : String) (r : Resolved)
    (iv cv : Value) (d c : ℚ)
    (hinc : objGet op "inc" = some iv) (hd : getNumericValue iv = some d)
    (hread : readSel r.parent r.sel = some cv) (hc : getNumericValue cv = some c) :
    applyInc doc op p r
      = (setAtDoc doc r.pre (writeSel r.parent r.sel (incStored c d)), none) := by
  simp only [applyInc, hinc, hd,
    readNumTarget_of_readSel "inc" p r.parent r.sel cv c hread hc]

theorem den_one_intCast (q : ℚ) (h : q.den = 1) : ((q.num : Int) : ℚ) = q :=
  (Rat.den_eq_one_iff q).mp h

theorem truncToInt_den_one (q : ℚ) (h : q.den = 1) : truncToInt q = q.num := by
  simp [truncToInt, h, Int.tdiv_one]

theorem add_den_one (a b : ℚ) (ha : a.den = 1) (hb : b.den = 1) : (a + b).den = 1 := by
  rw [← den_one_intCast a ha, ← den_one_intCast b hb, ← Int.cast_add]
  exact Rat.den_intCast _

theorem applyTest_fst (doc : Doc) (op : Op) (p : String) (r : Resolved) :
    (applyTest doc op p r).1 = doc := by
  cases hv : objGet op "value" with
  | none => simp [applyTest, hv]
  | some w =>
    cases ht : readTestTarget p r.parent r.sel with
    | error e => simp [applyTest, hv, ht]
    | ok cur =>
      by_cases hj : jsonEqual cur w <;> simp [applyTest, hv, ht, hj]

/-- C2: For every inc operation whose target currently holds a numeric value v
and whose inc operand is a numeric value d, Apply stores at the target the
integer part of the double sum, the truncation toward zero of v + d,
discarding any fractional part regardless of the original numeric widths of
v and d. -/
theorem c2_inc_stores_truncated_sum (doc : Doc) (op : Op) (p : String) (r : Resolved)
    (w w2 : NumKind) (v d : ℚ)
    (hop : objGet op "op" = some (.str "inc"))
    (hpath : objGet op "path" = some (.str p))
    (hp : p ≠ "")
    (hres : resolvePath doc p = .ok r)
    (hread : readSel r.parent r.sel = some (.num w v))
    (hinc : objGet op "inc" = some (.num w2 d)) :
    (applyOp doc op).2 = none ∧
      readAtPath (applyOp doc op).1 p
        = some (.num .int ((truncToInt (v + d) : Int) : ℚ)) := by
  rw [applyOp_kind_inc doc op p r hop hpath hp hres]
  rw [applyInc_spec doc op p r (.num w2 d) (.num w v) d v hinc rfl hread rfl]
  refine ⟨rfl, ?_⟩
  exact (write_roundtrip doc p r (incStored v d) (.num w v) hp hres hread).2

theorem c2_witness :
    (applyOp [("n", .num .float64 1)]
        [("op", .str "inc"), ("path", .str "/n"), ("inc", .num .int 2)]).2 = none ∧
      readAtPath (applyOp [("n", .num .float64 1)]
        [("op", .str "inc"), ("path", .str "/n"), ("inc", .num .int 2)]).1 "/n"
        = some (.num .int 3) := by
  have h := c2_inc_stores_truncated_sum [("n", .num .float64 1)]
    [("op", .str "inc"), ("path", .str "/n"), ("inc", .num .int 2)] "/n"
    ⟨[], .obj [("n", .num .float64 1)], "n", .key "n"⟩ .float64 .int 1 2
    rfl rfl (by decide) rfl rfl rfl
  have h3 : truncToInt ((1 : ℚ) + 2) = 3 := by
    have : ((1 : ℚ) + 2) = ((3 : Int) : ℚ) := by norm_num
    rw [this, truncToInt_den_one _ (Rat.den_intCast 3), Rat.num_intCast]
  rw [h3] at h
  exact_mod_cast h

/-- C5: Apply applies operations in order; when an operation fails it returns
exactly that first failing error, attempts none of the later operations, and
keeps the effects of the operations completed before the failure. -/
theorem c5_first_error_stops (doc d1 d2 : Doc) (ops1 ops2 : List Op) (op : Op) (e : Err)
    (h1 : Apply doc ops1 = (d1, none)) (h2 : applyOp d1 op = (d2, some e)) :
    Apply doc (ops1 ++ op :: ops2) = (d2, some e) := by
  induction ops1 generalizing doc with
  | nil =>
    simp only [Apply] at h1
    have hd : doc = d1 := by
      injection h1 with ha hb
    subst hd
    simp [Apply, h2]
  | cons o os ih =>
    rw [List.cons_append]
    simp only [Apply] at h1 ⊢
    cases ha : applyOp doc o with
    | mk dX eX =>
      simp only [ha] at h1 ⊢
      cases eX with
      | some e2 => exact absurd h1 (by simp)
      | none => exact ih dX h1

theorem c5_witness :
    Apply [("a", .num .int 1)]
        ([[("op", .str "replace"), ("path", .str "/a"), ("value", .num .int 2)]]
          ++ [("op", .str "replace"), ("path", .str "/missing"), ("value", .null)]
            :: [[("op", .str "replace"), ("path", .str "/a"), ("value", .num .int 3)]])
      = ([("a", .num .int 2)], some (.segNotFound "missing" "/missing")) :=
  c5_first_error_stops [("a", .num .int 1)] [("a", .num .int 2)] [("a", .num .int 2)]
    [[("op", .str "replace"), ("path", .str "/a"), ("value", .num .int 2)]]
    [[("op", .str "replace"), ("path", .str "/a"), ("value", .num .int 3)]]
    [("op", .str "replace"), ("path", .str "/missing"), ("value", .null)]
    (.segNotFound "missing" "/missing") rfl rfl

/-- C10: A batch consisting of a single test operation never mutates the
document, whether the test succeeds or Apply returns an error. -/
theorem c10_test_never_mutates (doc : Doc) (op : Op)
    (hop : objGet op "op" = some (.str "test")) :
    (Apply doc [op]).1 = doc := by
  have hsingle : Apply doc [op] = applyOp doc op := by
    simp only [Apply]
    cases h : applyOp doc op with
    | mk d e => cases e <;> simp
  rw [hsingle]
  cases hpath : objGet op "path" with
  | none => simp [applyOp, hop, hpath]
  | some pv =>
    cases pv with
    | str p =>
      by_cases hp : p = ""
      · subst hp
        simp [applyOp, hop, hpath, applyRoot]
      · simp only [applyOp, hop, hpath, if_neg hp]
        cases hres : resolvePath doc p with
        | error e => simp
        | ok r =>
          simp only []
          simp
          exact applyTest_fst doc op p r
    | null => simp [applyOp, hop, hpath]
    | bool b => simp [applyOp, hop, hpath]
    | num nk nq => simp [applyOp, hop, hpath]
    | arr l => simp [applyOp, hop, hpath]
    | obj m => simp [applyOp, hop, hpath]

theorem c10_witness :
    (Apply [("a", .num .int 1)]
        [[("op", .str "test"), ("path", .str "/missing"), ("value", .null)]]).1
      = [("a", .num .int 1)] :=
  c10_test_never_mutates [("a", .num .int 1)]
    [("op", .str "test"), ("path", .str "/missing"), ("value", .null)] rfl

/-- C6: A test operation whose path resolves to an existing value v succeeds
exactly when jsonEqual accepts v against the value field; numbers compare by
real value regardless of width or floatness. -/
theorem c6_test_iff_jsonEqual (doc : Doc) (op : Op) (p : String) (r : Resolved)
    (v w : Value)
    (hop : objGet op "op" = some (.str "test"))
    (hpath : objGet op "path" = some (.str p))
    (hp : p ≠ "")
    (hres : resolvePath doc p = .ok r)
    (hread : readSel r.parent r.sel = some v)
    (hval : objGet op "value" = some w) :
    applyOp doc op = (doc, none) ↔ jsonEqual v w = true := by
  rw [applyOp_kind_test doc op p r hop hpath hp hres]
  simp only [applyTest, hval, readTestTarget_of_readSel p r.parent r.sel v hread]
  by_cases hj : jsonEqual v w
  · simp [hj]
  · simp [hj]

theorem c6_witness :
    applyOp [("a", .obj [("b", .num .int 1)])]
        [("op", .str "test"), ("path", .str "/a/b"), ("value", .num .int 1)]
      = ([("a", .obj [("b", .num .int 1)])], none) ∧
    applyOp [("a", .obj [("b", .num .int 1)])]
        [("op", .str "test"), ("path", .str "/a/b"), ("value", .num .float64 1)]
      = ([("a", .obj [("b", .num .int 1)])], none) := by
  constructor
  · exact (c6_test_iff_jsonEqual [("a", .obj [("b", .num .int 1)])]
      [("op", .str "test"), ("path", .str "/a/b"), ("value", .num .int 1)] "/a/b"
      ⟨[.key "a"], .obj [("b", .num .int 1)], "b", .key "b"⟩ (.num .int 1) (.num .int 1)
      rfl rfl (by decide) rfl rfl rfl).mpr (by rfl)
  · exact (c6_test_iff_jsonEqual [("a", .obj [("b", .num .int 1)])]
      [("op", .str "test"), ("path", .str "/a/b"), ("value", .num .float64 1)] "/a/b"
      ⟨[.key "a"], .obj [("b", .num .int 1)], "b", .key "b"⟩ (.num .int 1) (.num .float64 1)
      rfl rfl (by decide) rfl rfl rfl).mpr (by rfl)

/-! The str_ins handler: characterization and bounds facts. -/

theorem utf16WalkIdx_le (cs : List Char) :
    ∀ (cu : Nat) (off : Int), utf16WalkIdx cs cu off ≤ cs.length := by
  induction cs with
  | nil => intro cu off; simp [utf16WalkIdx]
  | cons c rest ih =>
    intro cu off
    simp only [utf16WalkIdx]
    split
    · simp
    · have := ih (cu + runeUtf16Width c) off
      simp only [List.length_cons]
      omega

theorem utf16OffsetToRuneIndex_le (text : String) (off : Int) :
    utf16OffsetToRuneIndex text off ≤ text.data.length := by
  unfold utf16OffsetToRuneIndex
  split
  · simp
  · exact utf16WalkIdx_le text.data 0 off

theorem truncToInt_nonpos (q : ℚ) (h : q < 0) : truncToInt q ≤ 0 := by
  have hnum : q.num ≤ 0 := le_of_lt (Rat.num_neg.mpr h)
  unfold truncToInt
  have h1 : q.num.tdiv q.den = -((-q.num).tdiv q.den) := by
    rw [← Int.neg_tdiv, Int.neg_neg]
  rw [h1]
  simp only [Left.neg_nonpos_iff]
  exact Int.tdiv_nonneg (by omega) (by positivity)

theorem applyStrIns_spec (doc : Doc) (op : Op) (p : String) (r : Resolved)
    (pv : Value) (pq : ℚ) (ins cur : String)
    (hpos : objGet op "pos" = some pv) (hpq : getNumericValue pv = some pq)
    (hstr : objGet op "str" = some (.str ins))
    (hread : readSel r.parent r.sel = some (.str cur))
    (hbound : truncToInt pq ≤ (utf16Length cur : Int)) :
    applyStrIns doc op p r
      = (setAtDoc doc r.pre (writeSel r.parent r.sel
          (.str (String.mk
            (cur.data.take (utf16OffsetToRuneIndex cur (truncToInt pq))
              ++ ins.data
              ++ cur.data.drop (utf16OffsetToRuneIndex cur (truncToInt pq)))))), none) := by
  simp only [applyStrIns, hpos, hstr, Option.bind, hpq,
    readStringAt_of_readSel "str_ins" p r.parent r.sel cur hread]
  rw [if_neg (not_lt.mpr hbound)]
  rw [if_neg (not_lt.mpr (utf16OffsetToRuneIndex_le cur (truncToInt pq)))]

/-- C4: The pos field of str_ins is a UTF-16 code-unit offset, translated to a
codepoint index by the accumulating walk utf16OffsetToRuneIndex, and the given
string is inserted at that codepoint index. -/
theorem c4_strins_utf16_offset (doc : Doc) (op : Op) (p : String) (r : Resolved)
    (w : NumKind) (pq : ℚ) (ins cur : String)
    (hop : objGet op "op" = some (.str "str_ins"))
    (hpath : objGet op "path" = some (.str p))
    (hp : p ≠ "")
    (hres : resolvePath doc p = .ok r)
    (hread : readSel r.parent r.sel = some (.str cur))
    (hpos : objGet op "pos" = some (.num w pq))
    (hstr : objGet op "str" = some (.str ins))
    (hbound : truncToInt pq ≤ (utf16Length cur : Int)) :
    (applyOp doc op).2 = none ∧
      readAtPath (applyOp doc op).1 p
        = some (.str (String.mk
            (cur.data.take (utf16OffsetToRuneIndex cur (truncToInt pq))
              ++ ins.data
              ++ cur.data.drop (utf16OffsetToRuneIndex cur (truncToInt pq))))) := by
  rw [applyOp_kind_strIns doc op p r hop hpath hp hres]
  rw [applyStrIns_spec doc op p r (.num w pq) pq ins cur hpos rfl hstr hread hbound]
  refine ⟨rfl, ?_⟩
  exact (write_roundtrip doc p r _ (.str cur) hp hres hread).2

theorem c4_witness :
    (applyOp [("text", .str "Hello 🌍 world")]
        [("op", .str "str_ins"), ("path", .str "/text"),
         ("pos", .num .int 9), ("str", .str "big ")]).2 = none ∧
      readAtPath (applyOp [("text", .str "Hello 🌍 world")]
        [("op", .str "str_ins"), ("path", .str "/text"),
         ("pos", .num .int 9), ("str", .str "big ")]).1 "/text"
        = some (.str "Hello 🌍 big world") := by
  have h := c4_strins_utf16_offset [("text", .str "Hello 🌍 world")]
    [("op", .str "str_ins"), ("path", .str "/text"),
     ("pos", .num .int 9), ("str", .str "big ")] "/text"
    ⟨[], .obj [("text", .str "Hello 🌍 world")], "text", .key "text"⟩ .int 9
    "big " "Hello 🌍 world" rfl rfl (by decide) rfl rfl rfl rfl (by decide)
  exact ⟨h.1, h.2.trans (by rfl)⟩

/-- C9: A str_ins whose pos is any negative number does not fail: the negative
UTF-16 offset translates to codepoint index 0 and the string is inserted at
the start of the target. -/
theorem c9_strins_negative_pos (doc : Doc) (op : Op) (p : String) (r : Resolved)
    (w : NumKind) (pq : ℚ) (ins cur : String)
    (hop : objGet op "op" = some (.str "str_ins"))
    (hpath : objGet op "path" = some (.str p))
    (hp : p ≠ "")
    (hres : resolvePath doc p = .ok r)
    (hread : readSel r.parent r.sel = some (.str cur))
    (hpos : objGet op "pos" = some (.num w pq))
    (hstr : objGet op "str" = some (.str ins))
    (hneg : pq < 0) :
    (applyOp doc op).2 = none ∧
      readAtPath (applyOp doc op).1 p
        = some (.str (String.mk (ins.data ++ cur.data))) := by
  have htr : truncToInt pq ≤ 0 := truncToInt_nonpos pq hneg
  have hzero : utf16OffsetToRuneIndex cur (truncToInt pq) = 0 := by
    unfold utf16OffsetToRuneIndex
    rw [if_pos htr]
  rw [applyOp_kind_strIns doc op p r hop hpath hp hres]
  rw [applyStrIns_spec doc op p r (.num w pq) pq ins cur hpos rfl hstr hread
    (le_trans htr (by positivity))]
  rw [hzero]
  simp only [List.take_zero, List.drop_zero, List.nil_append]
  refine ⟨by simp, ?_⟩
  exact (write_roundtrip doc p r (.str (String.mk (ins.data ++ cur.data)))
    (.str cur) hp hres hread).2

theorem c9_witness :
    (applyOp [("t", .str "bc")]
        [("op", .str "str_ins"), ("path", .str "/t"),
         ("pos", .num .int (-5)), ("str", .str "a")]).2 = none ∧
      readAtPath (applyOp [("t", .str "bc")]
        [("op", .str "str_ins"), ("path", .str "/t"),
         ("pos", .num .int (-5)), ("str", .str "a")]).1 "/t"
        = some (.str (String.mk ("a".data ++ "bc".data))) :=
  c9_strins_negative_pos [("t", .str "bc")]
    [("op", .str "str_ins"), ("path", .str "/t"),
     ("pos", .num .int (-5)), ("str", .str "a")] "/t"
    ⟨[], .obj [("t", .str "bc")], "t", .key "t"⟩ .int (-5) "a" "bc"
    rfl rfl (by decide) rfl rfl rfl rfl (by norm_num)

/-- C3: The str_del deletion length comes from, in priority order, the
codepoint length of the str field when that is present as a string (its
content never compared and any len field ignored), else from a numeric len
field interpreted as a UTF-16 length anchored at pos, else the operation
fails with the missing-field error. -/
theorem c3_strdel_length_selection (doc : Doc) (op : Op) (p : String)
    (r : Resolved) (pv : Value) (pq : ℚ) (cur : String)
    (hop : objGet op "op" = some (.str "str_del"))
    (hpath : objGet op "path" = some (.str p))
    (hp : p ≠ "")
    (hres : resolvePath doc p = .ok r)
    (hpos : objGet op "pos" = some pv)
    (hpq : getNumericValue pv = some pq)
    (hread : readSel r.parent r.sel = some (.str cur))
    (hbound : truncToInt pq ≤ (utf16Length cur : Int)) :
    (∀ s : String, strFieldOf op = some s →
      ¬ ((s.data.length : Int) < 0 ∨ (cur.data.length : Int)
          < (utf16OffsetToRuneIndex cur (truncToInt pq) : Int) + (s.data.length : Int)) →
      (applyOp doc op).2 = none ∧
        readAtPath (applyOp doc op).1 p = some (.str (String.mk
          (cur.data.take (utf16OffsetToRuneIndex cur (truncToInt pq))
            ++ cur.data.drop (utf16OffsetToRuneIndex cur (truncToInt pq) + s.data.length)))))
    ∧
    (∀ (lv : Value) (lq : ℚ), strFieldOf op = none → objGet op "len" = some lv →
      getNumericValue lv = some lq →
      ¬ (utf16LenToRuneLen cur (truncToInt pq) (truncToInt lq) < 0 ∨ (cur.data.length : Int)
          < (utf16OffsetToRuneIndex cur (truncToInt pq) : Int)
            + utf16LenToRuneLen cur (truncToInt pq) (truncToInt lq)) →
      (applyOp doc op).2 = none ∧
        readAtPath (applyOp doc op).1 p = some (.str (String.mk
          (cur.data.take (utf16OffsetToRuneIndex cur (truncToInt pq))
            ++ cur.data.drop (utf16OffsetToRuneIndex cur (truncToInt pq)
                + (utf16LenToRuneLen cur (truncToInt pq) (truncToInt lq)).toNat)))))
    ∧
    (strFieldOf op = none → objGet op "len" = none →
      applyOp doc op = (doc, some (.strOrLenRequired p))) := by
  rw [applyOp_kind_strDel doc op p r hop hpath hp hres]
  refine ⟨?_, ?_, ?_⟩
  · intro s hs hrange
    simp only [applyStrDel, hpos, Option.bind, hpq,
      readStringAt_of_readSel "str_del" p r.parent r.sel cur hread,
      if_neg (not_lt.mpr hbound), hs, strDelFinish, if_neg hrange,
      Int.toNat_natCast]
    refine ⟨by simp, ?_⟩
    exact (write_roundtrip doc p r _ (.str cur) hp hres hread).2
  · intro lv lq hs hlen hlq hrange
    simp only [applyStrDel, hpos, Option.bind, hpq,
      readStringAt_of_readSel "str_del" p r.parent r.sel cur hread,
      if_neg (not_lt.mpr hbound), hs, hlen, hlq, strDelFinish, if_neg hrange]
    refine ⟨by simp, ?_⟩
    exact (write_roundtrip doc p r _ (.str cur) hp hres hread).2
  · intro hs hlen
    simp only [applyStrDel, hpos, Option.bind, hpq,
      readStringAt_of_readSel "str_del" p r.parent r.sel cur hread,
      if_neg (not_lt.mpr hbound), hs, hlen]

theorem c3_witness :
    ((applyOp [("s", .str "abcd")]
        [("op", .str "str_del"), ("path", .str "/s"), ("pos", .num .int 1),
         ("str", .str "xx"), ("len", .bool true)]).2 = none ∧
      readAtPath (applyOp [("s", .str "abcd")]
        [("op", .str "str_del"), ("path", .str "/s"), ("pos", .num .int 1),
         ("str", .str "xx"), ("len", .bool true)]).1 "/s"
        = some (.str "ad")) ∧
    ((applyOp [("s", .str "abcd")]
        [("op", .str "str_del"), ("path", .str "/s"), ("pos", .num .int 1),
         ("len", .num .int 2)]).2 = none ∧
      readAtPath (applyOp [("s", .str "abcd")]
        [("op", .str "str_del"), ("path", .str "/s"), ("pos", .num .int 1),
         ("len", .num .int 2)]).1 "/s"
        = some (.str "ad")) ∧
    applyOp [("s", .str "abcd")]
        [("op", .str "str_del"), ("path", .str "/s"), ("pos", .num .int 1)]
      = ([("s", .str "abcd")], some (.strOrLenRequired "/s")) := by
  refine ⟨?_, ?_, ?_⟩
  · have h := (c3_strdel_length_selection [("s", .str "abcd")]
      [("op", .str "str_del"), ("path", .str "/s"), ("pos", .num .int 1),
       ("str", .str "xx"), ("len", .bool true)] "/s"
      ⟨[], .obj [("s", .str "abcd")], "s", .key "s"⟩ (.num .int 1) 1 "abcd"
      rfl rfl (by decide) rfl rfl rfl rfl (by decide)).1 "xx" rfl (by decide)
    exact ⟨h.1, h.2.trans (by rfl)⟩
  · have h := (c3_strdel_length_selection [("s", .str "abcd")]
      [("op", .str "str_del"), ("path", .str "/s"), ("pos", .num .int 1),
       ("len", .num .int 2)] "/s"
      ⟨[], .obj [("s", .str "abcd")], "s", .key "s"⟩ (.num .int 1) 1 "abcd"
      rfl rfl (by decide) rfl rfl rfl rfl (by decide)).2.1 (.num .int 2) 2
      rfl rfl rfl (by decide)
    exact ⟨h.1, h.2.trans (by rfl)⟩
  · exact (c3_strdel_length_selection [("s", .str "abcd")]
      [("op", .str "str_del"), ("path", .str "/s"), ("pos", .num .int 1)] "/s"
      ⟨[], .obj [("s", .str "abcd")], "s", .key "s"⟩ (.num .int 1) 1 "abcd"
      rfl rfl (by decide) rfl rfl rfl rfl (by decide)).2.2 rfl rfl

/-! Two consecutive inc operations on the same target. -/

theorem inc_twice_spec (doc : Doc) (op1 op2 : Op) (p : String) (r : Resolved)
    (w w1 w2 : NumKind) (v d1 d2 : ℚ)
    (hop1 : objGet op1 "op" = some (.str "inc"))
    (hpath1 : objGet op1 "path" = some (.str p))
    (hop2 : objGet op2 "op" = some (.str "inc"))
    (hpath2 : objGet op2 "path" = some (.str p))
    (hp : p ≠ "")
    (hres : resolvePath doc p = .ok r)
    (hread : readSel r.parent r.sel = some (.num w v))
    (hinc1 : objGet op1 "inc" = some (.num w1 d1))
    (hinc2 : objGet op2 "inc" = some (.num w2 d2)) :
    (Apply doc [op1, op2]).2 = none ∧
      readAtPath (Apply doc [op1, op2]).1 p
        = some (incStored ((truncToInt (v + d1) : Int) : ℚ) d2) := by
  have a1 : applyOp doc op1
      = (setAtDoc doc r.pre (writeSel r.parent r.sel (incStored v d1)), none) := by
    rw [applyOp_kind_inc doc op1 p r hop1 hpath1 hp hres]
    exact applyInc_spec doc op1 p r (.num w1 d1) (.num w v) d1 v hinc1 rfl hread rfl
  have wr1 := write_roundtrip doc p r (incStored v d1) (.num w v) hp hres hread
  have hread2 : readSel (writeSel r.parent r.sel (incStored v d1)) r.sel
      = some (incStored v d1) :=
    readSel_writeSel_self r.parent r.sel (incStored v d1) (.num w v) hread
  have a2 : applyOp (setAtDoc doc r.pre (writeSel r.parent r.sel (incStored v d1))) op2
      = (setAtDoc (setAtDoc doc r.pre (writeSel r.parent r.sel (incStored v d1)))
          r.pre (writeSel (writeSel r.parent r.sel (incStored v d1)) r.sel
            (incStored ((truncToInt (v + d1) : Int) : ℚ) d2)), none) := by
    rw [applyOp_kind_inc _ op2 p
      ⟨r.pre, writeSel r.parent r.sel (incStored v d1), r.leaf, r.sel⟩
      hop2 hpath2 hp wr1.1]
    exact applyInc_spec _ op2 p
      ⟨r.pre, writeSel r.parent r.sel (incStored v d1), r.leaf, r.sel⟩
      (.num w2 d2) (incStored v d1) d2 ((truncToInt (v + d1) : Int) : ℚ)
      hinc2 rfl hread2 rfl
  have happ : Apply doc [op1, op2]
      = (setAtDoc (setAtDoc doc r.pre (writeSel r.parent r.sel (incStored v d1)))
          r.pre (writeSel (writeSel r.parent r.sel (incStored v d1)) r.sel
            (incStored ((truncToInt (v + d1) : Int) : ℚ) d2)), none) := by
    simp only [Apply, a1, a2]
  rw [happ]
  refine ⟨rfl, ?_⟩
  exact (write_roundtrip (setAtDoc doc r.pre (writeSel r.parent r.sel (incStored v d1))) p
    ⟨r.pre, writeSel r.parent r.sel (incStored v d1), r.leaf, r.sel⟩
    (incStored ((truncToInt (v + d1) : Int) : ℚ) d2) (incStored v d1) hp wr1.1 hread2).2

/-- C8 (amended): when the stored value v and the delta d are both integral,
inc(path, d) then inc(path, -d) returns the target to the truncated original
value v. -/
theorem c8_inc_roundtrip_integral (doc : Doc) (op1 op2 : Op) (p : String)
    (r : Resolved) (w w1 w2 : NumKind) (v d : ℚ)
    (hop1 : objGet op1 "op" = some (.str "inc"))
    (hpath1 : objGet op1 "path" = some (.str p))
    (hop2 : objGet op2 "op" = some (.str "inc"))
    (hpath2 : objGet op2 "path" = some (.str p))
    (hp : p ≠ "")
    (hres : resolvePath doc p = .ok r)
    (hread : readSel r.parent r.sel = some (.num w v))
    (hinc1 : objGet op1 "inc" = some (.num w1 d))
    (hinc2 : objGet op2 "inc" = some (.num w2 (-d)))
    (hv : v.den = 1) (hd : d.den = 1) :
    (Apply doc [op1, op2]).2 = none ∧
      readAtPath (Apply doc [op1, op2]).1 p = some (.num .int v) := by
  have h := inc_twice_spec doc op1 op2 p r w w1 w2 v d (-d)
    hop1 hpath1 hop2 hpath2 hp hres hread hinc1 hinc2
  have hvd : (v + d).den = 1 := add_den_one v d hv hd
  have h1 : ((truncToInt (v + d) : Int) : ℚ) = v + d := by
    rw [truncToInt_den_one _ hvd]
    exact den_one_intCast _ hvd
  have h2 : incStored ((truncToInt (v + d) : Int) : ℚ) (-d) = .num .int v := by
    unfold incStored
    rw [h1]
    have h3 : v + d + -d = v := by ring
    rw [h3, truncToInt_den_one v hv, den_one_intCast v hv]
  rw [h2] at h
  exact h

theorem c8_witness :
    (Apply [("n", .num .int 5)]
        [[("op", .str "inc"), ("path", .str "/n"), ("inc", .num .int 2)],
         [("op", .str "inc"), ("path", .str "/n"), ("inc", .num .int (-(2 : ℚ)))]]).2
      = none ∧
      readAtPath (Apply [("n", .num .int 5)]
        [[("op", .str "inc"), ("path", .str "/n"), ("inc", .num .int 2)],
         [("op", .str "inc"), ("path", .str "/n"), ("inc", .num .int (-(2 : ℚ)))]]).1 "/n"
        = some (.num .int 5) :=
  c8_inc_roundtrip_integral [("n", .num .int 5)]
    [("op", .str "inc"), ("path", .str "/n"), ("inc", .num .int 2)]
    [("op", .str "inc"), ("path", .str "/n"), ("inc", .num .int (-(2 : ℚ)))]
    "/n" ⟨[], .obj [("n", .num .int 5)], "n", .key "n"⟩ .int .int .int 5 2
    rfl rfl rfl rfl (by decide) rfl rfl rfl rfl (by decide) (by decide)

/-- One half, as the exact value of the double 0.5. -/
def oneHalf : ℚ := mkRat 1 2

/-- Minus one half, as the exact value of the double -0.5. -/
def negHalf : ℚ := mkRat (-1) 2

theorem c8_counterexample :
    (1 : ℚ).den = 1 ∧ negHalf = -oneHalf ∧
      ¬ readAtPath (Apply [("n", .num .int 1)]
          [[("op", .str "inc"), ("path", .str "/n"), ("inc", .num .float64 oneHalf)],
           [("op", .str "inc"), ("path", .str "/n"), ("inc", .num .float64 negHalf)]]).1 "/n"
        = some (.num .int 1) := by
  have hh : oneHalf = 1 / 2 := by
    unfold oneHalf
    rw [Rat.mkRat_eq_div]
    norm_num
  have hn : negHalf = -(1 / 2) := by
    unfold negHalf
    rw [Rat.mkRat_eq_div]
    norm_num
  refine ⟨by decide, by rw [hh, hn], ?_⟩
  intro hcontra
  have h := inc_twice_spec [("n", .num .int 1)]
    [("op", .str "inc"), ("path", .str "/n"), ("inc", .num .float64 oneHalf)]
    [("op", .str "inc"), ("path", .str "/n"), ("inc", .num .float64 negHalf)]
    "/n" ⟨[], .obj [("n", .num .int 1)], "n", .key "n"⟩ .int .float64 .float64
    1 oneHalf negHalf rfl rfl rfl rfl (by decide) rfl rfl rfl rfl
  have e1 : truncToInt ((1 : ℚ) + oneHalf) = 1 := by
    rw [hh]
    unfold truncToInt
    rw [show ((1 : ℚ) + 1 / 2) = 3 / 2 by norm_num]
    rw [show ((3 : ℚ) / 2).num = 3 by norm_num, show ((3 : ℚ) / 2).den = 2 by norm_num]
    decide
  have e2 : truncToInt (((1 : Int) : ℚ) + negHalf) = 0 := by
    rw [hn]
    unfold truncToInt
    rw [show ((((1 : Int) : ℚ)) + -(1 / 2)) = 1 / 2 by norm_num]
    rw [show ((1 : ℚ) / 2).num = 1 by norm_num, show ((1 : ℚ) / 2).den = 2 by norm_num]
    decide
  rw [e1] at h
  have e3 : incStored ((1 : Int) : ℚ) negHalf = .num .int ((0 : Int) : ℚ) := by
    unfold incStored
    rw [e2]
  rw [e3] at h
  rw [h.2] at hcontra
  injection hcontra with h4
  injection h4 with h5 h6
  exact absurd h6 (by norm_num)

/-! Map-key writes re-resolve to the updated map, and a pair of inverse
map writes restores the document. -/

theorem resolve_obj_write (doc : Doc) (p : String) (r : Resolved)
    (m : List (String × Value)) (k : String)
    (hp : p ≠ "") (hres : resolvePath doc p = .ok r)
    (hparent : r.parent = .obj m) (_hsel : r.sel = .key k) :
    ∀ m2 : List (String × Value),
      resolvePath (setAtDoc doc r.pre (.obj m2)) p
        = .ok ⟨r.pre, .obj m2, r.leaf, r.sel⟩ := by
  intro m2
  have h := resolvePath_setAtDoc doc p r (.obj m2) hp hres (fun _ => ⟨m2, rfl⟩)
  have hfs := resolvePath_finalStep doc p r hres
  rw [hparent] at hfs
  simp only [finalStep] at hfs
  rw [h]
  rw [show finalStep p r.leaf (.obj m2) = .ok r.sel from by
    simp only [finalStep]; exact hfs]
  rfl

theorem setAtDoc_collapse (doc : Doc) (pre : List Step) (a : Value)
    (m : List (String × Value))
    (hget : getAt (.obj doc) pre = some (.obj m))
    (ha : pre = [] → ∃ ma, a = .obj ma) :
    setAtDoc (setAtDoc doc pre a) pre (.obj m) = doc := by
  have h1 : Value.obj (setAtDoc doc pre a) = setAt (.obj doc) pre a :=
    obj_setAtDoc doc pre a ha
  have h2 : Value.obj (setAtDoc (setAtDoc doc pre a) pre (.obj m))
      = setAt (.obj (setAtDoc doc pre a)) pre (.obj m) :=
    obj_setAtDoc _ pre (.obj m) (fun _ => ⟨m, rfl⟩)
  rw [h1] at h2
  rw [setAt_setAt_same pre (.obj doc) a (.obj m) (.obj m) hget] at h2
  rw [setAt_getAt_self pre (.obj doc) (.obj m) hget] at h2
  injection h2

/-- C7 (amended): for a Map key that already exists with value oldValue,
add(path, newValue) then replace(path, oldValue) restores the original
document; add(path, newValue) then remove(path) restores the original
document (and hence the original key set) when the key was not previously
present, while for an existing key the remove deletes it. -/
theorem c7_add_replace_remove_roundtrip (doc : Doc) (addOp repOp remOp : Op)
    (p : String) (r : Resolved) (m : List (String × Value)) (k : String)
    (newV : Value)
    (hp : p ≠ "")
    (hres : resolvePath doc p = .ok r)
    (hparent : r.parent = .obj m) (hsel : r.sel = .key k)
    (haddop : objGet addOp "op" = some (.str "add"))
    (haddpath : objGet addOp "path" = some (.str p))
    (haddval : objGet addOp "value" = some newV)
    (hrepop : objGet repOp "op" = some (.str "replace"))
    (hreppath : objGet repOp "path" = some (.str p))
    (hremop : objGet remOp "op" = some (.str "remove"))
    (hrempath : objGet remOp "path" = some (.str p)) :
    (∀ oldV : Value, objGet m k = some oldV → objGet repOp "value" = some oldV →
      Apply doc [addOp, repOp] = (doc, none)) ∧
    (objGet m k = none → Apply doc [addOp, remOp] = (doc, none)) := by
  have hgetm : getAt (.obj doc) r.pre = some (.obj m) := by
    have h := resolvePath_getAt doc p r hres
    rw [hparent] at h
    exact h
  have a1 : applyOp doc addOp
      = (setAtDoc doc r.pre (.obj (objSet m k newV)), none) := by
    rw [applyOp_kind_add doc addOp p r haddop haddpath hp hres]
    simp only [applyAdd, haddval, insertAsAdd, hparent, hsel]
  have hre2 := resolve_obj_write doc p r m k hp hres hparent hsel (objSet m k newV)
  constructor
  · intro oldV hold hrepval
    have a2 : applyOp (setAtDoc doc r.pre (.obj (objSet m k newV))) repOp
        = (setAtDoc (setAtDoc doc r.pre (.obj (objSet m k newV))) r.pre
            (.obj (objSet (objSet m k newV) k oldV)), none) := by
      rw [applyOp_kind_replace _ repOp p
        ⟨r.pre, .obj (objSet m k newV), r.leaf, r.sel⟩ hrepop hreppath hp hre2]
      simp only [applyReplace, hrepval, hsel, objGet_objSet_self]
    have happ : Apply doc [addOp, repOp]
        = (setAtDoc (setAtDoc doc r.pre (.obj (objSet m k newV))) r.pre
            (.obj (objSet (objSet m k newV) k oldV)), none) := by
      simp only [Apply, a1, a2]
    rw [happ, objSet_objSet_self, objSet_objGet_self m k oldV hold]
    rw [setAtDoc_collapse doc r.pre (.obj (objSet m k newV)) m hgetm
      (fun _ => ⟨objSet m k newV, rfl⟩)]
  · intro habs
    have a2 : applyOp (setAtDoc doc r.pre (.obj (objSet m k newV))) remOp
        = (setAtDoc (setAtDoc doc r.pre (.obj (objSet m k newV))) r.pre
            (.obj (objDel (objSet m k newV) k)), none) := by
      rw [applyOp_kind_remove _ remOp p
        ⟨r.pre, .obj (objSet m k newV), r.leaf, r.sel⟩ hremop hrempath hp hre2]
      simp only [applyRemove, hsel, objGet_objSet_self]
    have happ : Apply doc [addOp, remOp]
        = (setAtDoc (setAtDoc doc r.pre (.obj (objSet m k newV))) r.pre
            (.obj (objDel (objSet m k newV) k)), none) := by
      simp only [Apply, a1, a2]
    rw [happ, objDel_objSet_of_absent m k newV habs]
    rw [setAtDoc_collapse doc r.pre (.obj (objSet m k newV)) m hgetm
      (fun _ => ⟨objSet m k newV, rfl⟩)]

theorem c7_witness :
    Apply [("a", .num .int 1)]
        [[("op", .str "add"), ("path", .str "/a"), ("value", .num .int 2)],
         [("op", .str "replace"), ("path", .str "/a"), ("value", .num .int 1)]]
      = ([("a", .num .int 1)], none) ∧
    Apply [("a", .num .int 1)]
        [[("op", .str "add"), ("path", .str "/b"), ("value", .num .int 7)],
         [("op", .str "remove"), ("path", .str "/b")]]
      = ([("a", .num .int 1)], none) := by
  constructor
  · exact (c7_add_replace_remove_roundtrip [("a", .num .int 1)]
      [("op", .str "add"), ("path", .str "/a"), ("value", .num .int 2)]
      [("op", .str "replace"), ("path", .str "/a"), ("value", .num .int 1)]
      [("op", .str "remove"), ("path", .str "/a")] "/a"
      ⟨[], .obj [("a", .num .int 1)], "a", .key "a"⟩ [("a", .num .int 1)] "a"
      (.num .int 2) (by decide) rfl rfl rfl rfl rfl rfl rfl rfl rfl rfl).1
      (.num .int 1) rfl rfl
  · exact (c7_add_replace_remove_roundtrip [("a", .num .int 1)]
      [("op", .str "add"), ("path", .str "/b"), ("value", .num .int 7)]
      [("op", .str "replace"), ("path", .str "/b"), ("value", .null)]
      [("op", .str "remove"), ("path", .str "/b")] "/b"
      ⟨[], .obj [("a", .num .int 1)], "b", .key "b"⟩ [("a", .num .int 1)] "b"
      (.num .int 7) (by decide) rfl rfl rfl rfl rfl rfl rfl rfl rfl rfl).2 rfl

theorem c7_counterexample :
    objGet [("a", .num .int 1)] "a" = some (.num .int 1) ∧
      ¬ ((Apply [("a", .num .int 1)]
          [[("op", .str "add"), ("path", .str "/a"), ("value", .num .int 2)],
           [("op", .str "remove"), ("path", .str "/a")]]).1.map Prod.fst
        = ([("a", .num .int 1)] : Doc).map Prod.fst) := by
  refine ⟨rfl, ?_⟩
  intro h
  rw [show (Apply [("a", .num .int 1)]
      [[("op", .str "add"), ("path", .str "/a"), ("value", .num .int 2)],
       [("op", .str "remove"), ("path", .str "/a")]]).1 = ([] : Doc) from rfl] at h
  simp at h

/-! Collapse of two functional updates at the same resolved prefix. -/

theorem setAtDoc_setAtDoc (doc : Doc) (pre : List Step) (a b p0 : Value)
    (hget : getAt (.obj doc) pre = some p0)
    (ha : pre = [] → ∃ ma, a = .obj ma) (hb : pre = [] → ∃ mb, b = .obj mb) :
    setAtDoc (setAtDoc doc pre a) pre b = setAtDoc doc pre b := by
  have h1 : Value.obj (setAtDoc doc pre a) = setAt (.obj doc) pre a :=
    obj_setAtDoc doc pre a ha
  have h2 : Value.obj (setAtDoc (setAtDoc doc pre a) pre b)
      = setAt (.obj (setAtDoc doc pre a)) pre b := obj_setAtDoc _ pre b hb
  have h3 : Value.obj (setAtDoc doc pre b) = setAt (.obj doc) pre b :=
    obj_setAtDoc doc pre b hb
  rw [h1] at h2
  rw [setAt_setAt_same pre (.obj doc) a b p0 hget] at h2
  rw [← h3] at h2
  injection h2

/-- C1: A move whose from and path address positions of the same List first
removes the value at from, writing the shortened List back through the
resolved prefix, re-resolves path against the updated document, and inserts
there as add does, so the destination index is interpreted against the
shortened List. -/
theorem c1_move_same_list (doc : Doc) (op : Op) (p fromRaw : String)
    (rF rP : Resolved) (l : List Value) (i j : Int)
    (hop : objGet op "op" = some (.str "move"))
    (hpath : objGet op "path" = some (.str p))
    (hfrom : objGet op "from" = some (.str fromRaw))
    (hp : p ≠ "")
    (hpre : movePreCheck p fromRaw = false)
    (hresF : resolvePath doc fromRaw = .ok rF)
    (hresP : resolvePath doc p = .ok rP)
    (hsame : rF.pre = rP.pre)
    (hparF : rF.parent = .arr l) (hselF : rF.sel = .idx i)
    (hparP : rP.parent = .arr l)
    (hleafP : atoi rP.leaf = some j)
    (hi : 0 ≤ i ∧ i < (l.length : Int))
    (hj : 0 ≤ j ∧ j ≤ (l.length : Int) - 1) :
    applyOp doc op
      = (setAtDoc doc rF.pre (.arr (insertValueIntoSlice
          (removeValueFromSlice l i.toNat).1 j.toNat
          (removeValueFromSlice l i.toNat).2)), none) := by
  rw [applyOp_kind_move doc op p rP hop hpath hp hresP]
  have hib : ¬ (i < 0 ∨ (l.length : Int) ≤ i) := by omega
  simp only [applyMove, hfrom, hpre, Bool.false_eq_true, if_false, hresF,
    hparF, hselF, if_neg hib]
  have hdash : rP.leaf ≠ "-" := by
    intro h
    rw [h, show atoi "-" = none from rfl] at hleafP
    exact Option.noConfusion hleafP
  have hprenil : ¬ rP.pre = [] := by
    intro h
    have hg := resolvePath_getAt doc p rP hresP
    rw [h] at hg
    simp only [getAt, Option.some.injEq] at hg
    rw [hparP] at hg
    cases hg
  have hq1 : rP.pre = [] → ∃ mm,
      (Value.arr (removeValueFromSlice l i.toNat).1) = .obj mm :=
    fun h => absurd h hprenil
  have hre2 := resolvePath_setAtDoc doc p rP
    (.arr (removeValueFromSlice l i.toNat).1) hp hresP hq1
  have hfs2 : finalStep p rP.leaf (.arr (removeValueFromSlice l i.toNat).1)
      = .ok (.idx j) := by
    simp only [finalStep, if_neg hdash, hleafP]
  rw [hfs2] at hre2
  simp only [Except.map] at hre2
  rw [← hsame] at hre2
  simp only [moveFinish, hre2]
  have hlen2 : ((removeValueFromSlice l i.toNat).1.length : Int)
      = (l.length : Int) - 1 := by
    simp only [removeValueFromSlice, List.length_append, List.length_take,
      List.length_drop]
    omega
  have hjb : ¬ (j < 0 ∨ ((removeValueFromSlice l i.toNat).1.length : Int) < j) := by
    omega
  simp only [insertAsAdd, if_neg hjb]
  have hget0 : getAt (.obj doc) rF.pre = some (.arr l) := by
    have hg := resolvePath_getAt doc fromRaw rF hresF
    rw [hparF] at hg
    exact hg
  rw [setAtDoc_setAtDoc doc rF.pre (.arr (removeValueFromSlice l i.toNat).1)
    (.arr (insertValueIntoSlice (removeValueFromSlice l i.toNat).1 j.toNat
      (removeValueFromSlice l i.toNat).2)) (.arr l) hget0
    (fun h => absurd h (by rw [hsame]; exact hprenil))
    (fun h => absurd h (by rw [hsame]; exact hprenil))]

theorem c1_witness :
    Apply [("arr", .arr [.num .int 1, .num .int 2, .num .int 3])]
        [[("op", .str "move"), ("path", .str "/arr/2"), ("from", .str "/arr/0")]]
      = ([("arr", .arr [.num .int 2, .num .int 3, .num .int 1])], none) := by
  have h := c1_move_same_list
    [("arr", .arr [.num .int 1, .num .int 2, .num .int 3])]
    [("op", .str "move"), ("path", .str "/arr/2"), ("from", .str "/arr/0")]
    "/arr/2" "/arr/0"
    ⟨[.key "arr"], .arr [.num .int 1, .num .int 2, .num .int 3], "0", .idx 0⟩
    ⟨[.key "arr"], .arr [.num .int 1, .num .int 2, .num .int 3], "2", .idx 2⟩
    [.num .int 1, .num .int 2, .num .int 3] 0 2
    rfl rfl rfl (by decide) (by decide) rfl rfl rfl rfl rfl rfl rfl
    (by decide) (by decide)
  have hsingle : Apply [("arr", .arr [.num .int 1, .num .int 2, .num .int 3])]
      [[("op", .str "move"), ("path", .str "/arr/2"), ("from", .str "/arr/0")]]
      = applyOp [("arr", .arr [.num .int 1, .num .int 2, .num .int 3])]
        [("op", .str "move"), ("path", .str "/arr/2"), ("from", .str "/arr/0")] := by
    simp only [Apply]
    cases hx : applyOp [("arr", .arr [.num .int 1, .num .int 2, .num .int 3])]
      [("op", .str "move"), ("path", .str "/arr/2"), ("from", .str "/arr/0")] with
    | mk a b => cases b <;> simp
  rw [hsingle, h]
  rfl

end JsonPatch
